import Mathlib

/-!
power4-web: the Connect-Four engine of `main.go`.

A shallow embedding of the game engine found in `src/main.go` (the `Game`
struct, `makeBoard`, `findRow`, `checkWin`, `checkDirection`,
`countInDirection`, `checkDraw` and the state changes made by `startHandler`,
`playHandler` and `resetHandler`), followed by theorems about it.

Modelling conventions.

* A Go slice is a `List`; `[][]int` is `List (List Int)`.
* Go `int` is modelled by `Int`.  Indices, lengths and player numbers stay
  within the lengths of the slices.  The one unguarded arithmetic step,
  `game.TurnCount++`, is modelled as `+ 1`; Go wraps it at `2^63 - 1`
  (`wrap64`), so a theorem about arbitrary games that speaks of `TurnCount`
  carries the bound under which the two agree, and on reachable games
  `TurnCount` is the number of placed tokens.
* A Go run-time panic (index out of range, `make` with a negative length) and
  a loop that never exits are explicit results: functions that can panic
  return `Except Fault _`.
* `make` is modelled with unlimited memory; `makeChecked` adds the length
  limit of the Go run time as a parameter, and `makeBoardChecked` is
  `makeBoard` built on it.  Wherever the checked allocation returns, it
  returns what `makeBoard` returns.
* The HTTP layer (method check, `game == nil`, `strconv.Atoi`, redirects,
  templates) is outside the embedding: handlers are modelled from the point
  where a game exists and the column has been parsed.
-/

deriving instance DecidableEq for Except

namespace Power4

/-- Ways in which a Go function of the engine can fail to return normally. -/
inductive Fault where
  | indexOutOfRange
  | negativeLen
  | lenOutOfRange
  | diverges
  deriving DecidableEq

/-- The Go type `[][]int` of `Game.Board`. -/
abbrev Grid := List (List Int)

/-- The `Game` struct (main.go lines 9-19). -/
structure Game where
  Board : Grid
  CurrentPlayer : Int
  Winner : Int
  IsDraw : Bool
  Player1Name : String
  Player2Name : String
  Rows : Int
  Cols : Int
  TurnCount : Int
  deriving DecidableEq

/-- Go slice indexing `s[i]`; an index outside `[0, len(s))` panics. -/
def index {α : Type} (s : List α) (i : Int) : Except Fault α :=
  if i < 0 then .error .indexOutOfRange
  else
    match s[i.toNat]? with
    | some a => .ok a
    | none => .error .indexOutOfRange

/-- Go double indexing `board[r][c]`. -/
def cellAt (board : Grid) (r c : Int) : Except Fault Int := do
  let line ← index board r
  index line c

/-- Go `make([]T, n)`: a slice of `n` zero values; a negative `n` panics. -/
def make {α : Type} (zero : α) (n : Int) : Except Fault (List α) :=
  if n < 0 then .error .negativeLen else .ok (List.replicate n.toNat zero)

/-- The loop `for i := range board { board[i] = make([]int, cols) }` of
`makeBoard`: every entry of the outer slice is replaced by a fresh row. -/
def makeRows (cols : Int) : List (List Int) → Except Fault Grid
  | [] => .ok []
  | _ :: rest => do
    let line ← make (0 : Int) cols
    let others ← makeRows cols rest
    .ok (line :: others)

/-- Function `makeBoard` (main.go lines 164-170). -/
def makeBoard (rows cols : Int) : Except Fault Grid := do
  let board ← make ([] : List Int) rows
  makeRows cols board

/-- The value a Go `int` keeps of an integer result on a 64-bit platform:
two's-complement wrap-around into `[-2^63, 2^63)`. -/
def wrap64 (x : Int) : Int :=
  (x + 9223372036854775808) % 18446744073709551616 - 9223372036854775808

/-- The loop of `findRow`, with the loop variable `row = n - 1` counting down
while `row >= 0`; when the loop is exhausted the function returns `-1`. -/
def findRowLoop (board : Grid) (col : Int) : Nat → Except Fault Int
  | 0 => .ok (-1)
  | n + 1 => do
    let cell ← cellAt board (n : Int) col
    if cell = 0 then .ok (n : Int) else findRowLoop board col n

/-- Function `findRow` (main.go lines 172-179): the loop starts at
`row = len(board) - 1`. -/
def findRow (board : Grid) (col : Int) : Except Fault Int :=
  findRowLoop board col board.length

/-- The `for` loop of `countInDirection` (main.go lines 198-206) on the loop
variables `r`, `c`, `count`.  The first argument bounds the number of times
the loop condition is evaluated; running out of it is reported as
`Fault.diverges`.  The condition is evaluated left to right as Go does, so
`board[0]` is only read once `r` is a valid row index. -/
def countLoop (board : Grid) (player dRow dCol : Int) :
    Nat → Int → Int → Int → Except Fault Int
  | 0, _, _, _ => .error .diverges
  | fuel + 1, r, c, count =>
    if r ≥ 0 ∧ r < (board.length : Int) then do
      let first ← index board 0
      if c ≥ 0 ∧ c < (first.length : Int) then do
        let cell ← cellAt board r c
        if cell = player then
          countLoop board player dRow dCol fuel (r + dRow) (c + dCol) (count + 1)
        else .ok count
      else .ok count
    else .ok count

/-- The width the engine uses for every row, `len(board[0])`; `0` for a
board without rows, where the engine never evaluates it. -/
def width (board : Grid) : Nat := (board.headD []).length

/-- The number of loop-condition evaluations granted to `countInDirection`:
one more than the number of rows plus the number of columns.  With a non-zero
direction the loop leaves the grid earlier than that (see
`countInDirection_spec`); with direction `(0, 0)` on a matching cell the Go
loop never exits and the model reports `Fault.diverges`. -/
def loopBound (board : Grid) : Nat :=
  board.length + width board + 1

/-- Function `countInDirection` (main.go lines 195-208). -/
def countInDirection (board : Grid) (row col player dRow dCol : Int) : Except Fault Int :=
  countLoop board player dRow dCol (loopBound board) (row + dRow) (col + dCol) 0

/-- Function `checkDirection` (main.go lines 188-193). -/
def checkDirection (board : Grid) (row col player dRow dCol : Int) : Except Fault Bool := do
  let count := (1 : Int)
  let count := count + (← countInDirection board row col player dRow dCol)
  let count := count + (← countInDirection board row col player (-dRow) (-dCol))
  .ok (decide (count ≥ 4))

/-- Go short-circuit `a || b` where both operands may panic: `b` is only
evaluated when `a` is false. -/
def orElse (a b : Except Fault Bool) : Except Fault Bool := do
  if (← a) then .ok true else b

/-- Function `checkWin` (main.go lines 181-186). -/
def checkWin (board : Grid) (row col player : Int) : Except Fault Bool :=
  orElse (checkDirection board row col player 0 1)
    (orElse (checkDirection board row col player 1 0)
      (orElse (checkDirection board row col player 1 1)
        (checkDirection board row col player 1 (-1))))

/-- Function `checkDraw` (main.go lines 210-219): `false` at the first zero
cell, `true` when both `range` loops run to the end. -/
def checkDraw : Grid → Bool
  | [] => true
  | line :: rest => if line.any (fun cell => cell = 0) then false else checkDraw rest

/-- Go assignment `s[i] = v`; an index outside `[0, len(s))` panics. -/
def assign {α : Type} (s : List α) (i : Int) (v : α) : Except Fault (List α) :=
  if i < 0 then .error .indexOutOfRange
  else if i.toNat < s.length then .ok (s.set i.toNat v)
  else .error .indexOutOfRange

/-- Go assignment `board[row][col] = v`. -/
def setCell (board : Grid) (row col v : Int) : Except Fault Grid := do
  let line ← index board row
  let line ← assign line col v
  assign board row line

/-- The struct literal of `startHandler` (main.go lines 62-72) for given
names and dimensions. -/
def createGame (player1 player2 : String) (rows cols : Int) : Except Fault Game := do
  let board ← makeBoard rows cols
  .ok { Board := board, CurrentPlayer := 1, Winner := 0, IsDraw := false,
        Player1Name := player1, Player2Name := player2,
        Rows := rows, Cols := cols, TurnCount := 0 }

/-- The POST branch of `startHandler` (main.go lines 46-72): the difficulty
switch followed by the struct literal. -/
def startHandler (player1 player2 difficulty : String) : Except Fault Game :=
  if difficulty = "easy" then createGame player1 player2 6 7
  else if difficulty = "normal" then createGame player1 player2 6 9
  else if difficulty = "hard" then createGame player1 player2 7 8
  else createGame player1 player2 6 7

/-- The state change of `resetHandler` (main.go lines 155-159) on an existing
game.  `makeBoard` is evaluated before the first assignment, so a panic there
leaves the game untouched. -/
def resetHandler (g : Game) : Except Fault Game := do
  let board ← makeBoard g.Rows g.Cols
  .ok { g with Board := board, CurrentPlayer := 1, Winner := 0, IsDraw := false,
               TurnCount := 0 }

/-- Which guard of `playHandler` turned a move down.  The handler answers every
request with the same redirect; the reason records the `return` that was
taken: line 125 (`InvalidColumn`), line 130 (`GameAlreadyOver`), line 136
(`ColumnFull`). -/
inductive Reason where
  | InvalidColumn
  | GameAlreadyOver
  | ColumnFull
  deriving DecidableEq

/-- How a call of `playHandler` ended: the move was applied (line 150 was
reached), it was turned down by a guard, or the handler panicked. -/
inductive Outcome where
  | Accepted
  | Rejected (reason : Reason)
  | Aborted (fault : Fault)
  deriving DecidableEq

/-- The move step of `playHandler` (main.go lines 123-148) for a parsed column
`col` on an existing game: the outcome together with the game as the handler
leaves it.  After a panic the game keeps the assignments made so far.  The
increment `game.TurnCount++` is `+ 1` here; it is Go's wrapping increment
`wrap64 (TurnCount + 1)` as long as `TurnCount < 2^63 - 1`. -/
def playHandler (g : Game) (col : Int) : Outcome × Game :=
  if col < 0 ∨ col ≥ g.Cols then (.Rejected .InvalidColumn, g)
  else if g.Winner ≠ 0 ∨ g.IsDraw = true then (.Rejected .GameAlreadyOver, g)
  else
    match findRow g.Board col with
    | .error f => (.Aborted f, g)
    | .ok row =>
      if row = -1 then (.Rejected .ColumnFull, g)
      else
        match setCell g.Board row col g.CurrentPlayer with
        | .error f => (.Aborted f, g)
        | .ok board =>
          let g1 := { g with Board := board, TurnCount := g.TurnCount + 1 }
          match checkWin g1.Board row col g1.CurrentPlayer with
          | .error f => (.Aborted f, g1)
          | .ok true => (.Accepted, { g1 with Winner := g1.CurrentPlayer })
          | .ok false =>
            if checkDraw g1.Board then (.Accepted, { g1 with IsDraw := true })
            else (.Accepted, { g1 with CurrentPlayer := 3 - g1.CurrentPlayer })

/-! ## Specification vocabulary -/

/-- A rectangular board: every row has the length of the first row. -/
def Rectangular (board : Grid) : Prop := ∀ ln ∈ board, ln.length = width board

instance instDecidableRectangular (board : Grid) : Decidable (Rectangular board) := by
  unfold Rectangular; exact inferInstance

/-- Cell `(r, c)` lies inside the grid. -/
def InGrid (board : Grid) (r c : Int) : Prop :=
  0 ≤ r ∧ r < (board.length : Int) ∧ 0 ≤ c ∧ c < (width board : Int)

instance instDecidableInGrid (board : Grid) (r c : Int) : Decidable (InGrid board r c) := by
  unfold InGrid; exact inferInstance

/-- A bound on the number of iterations `countLoop` still makes from `(r, c)`:
the distance to the edge the direction is heading for. -/
def stepsLeft (board : Grid) (dRow dCol r c : Int) : Nat :=
  if InGrid board r c then
    ((if 0 < dRow then (board.length : Int) - r else if dRow < 0 then r + 1 else 0) +
      (if 0 < dCol then (width board : Int) - c else if dCol < 0 then c + 1 else 0)).toNat
  else 0

/-- The four line orientations `checkWin` passes to `checkDirection`:
horizontal, vertical and the two diagonals. -/
def orientations : List (Int × Int) := [(0, 1), (1, 0), (1, 1), (1, -1)]

/-- The cells at offsets `-a, ..., b` from `(row, col)` along `(dRow, dCol)`
are all inside the grid and all hold `player`: a line of `a + b + 1`
consecutive cells of `player` containing `(row, col)`. -/
def Line (board : Grid) (player row col dRow dCol : Int) (a b : Nat) : Prop :=
  ∀ i : Int, -(a : Int) ≤ i → i ≤ (b : Int) →
    cellAt board (row + i * dRow) (col + i * dCol) = .ok player

/-- Four consecutive cells starting at `(r, c)` and running along one of the
four orientations are inside the grid and hold `p`. -/
def HasFour (board : Grid) (p : Int) : Prop :=
  ∃ r c : Int, ∃ d ∈ orientations, ∀ i : Nat, i < 4 →
    cellAt board (r + (i : Int) * d.1) (c + (i : Int) * d.2) = .ok p

/-- The four cells starting at `(r, c)` along `(dRow, dCol)` all hold `p`. -/
def fourFrom (board : Grid) (p r c dRow dCol : Int) : Bool :=
  (List.range 4).all fun i =>
    decide (cellAt board (r + (i : Int) * dRow) (c + (i : Int) * dCol) = .ok p)

/-- The full-board scan the localized win check is compared with: every cell
of the grid is tried as the first cell of a run of four of `p`, in each of the
four orientations. -/
def scanFour (board : Grid) (p : Int) : Bool :=
  (List.range board.length).any fun r =>
    (List.range (width board)).any fun c =>
      orientations.any fun d => fourFrom board p (r : Int) (c : Int) d.1 d.2

/-- The data-model invariant of a game: `Board` is a grid of `Rows` rows of
`Cols` cells each. -/
def Game.WellFormed (g : Game) : Prop :=
  (g.Board.length : Int) = g.Rows ∧ ∀ ln ∈ g.Board, (ln.length : Int) = g.Cols

instance instDecidableWellFormed (g : Game) : Decidable g.WellFormed := by
  unfold Game.WellFormed; exact inferInstance

/-- A terminal game: won or drawn. -/
def Game.Terminal (g : Game) : Prop := g.Winner ≠ 0 ∨ g.IsDraw = true

instance instDecidableTerminal (g : Game) : Decidable g.Terminal := by
  unfold Game.Terminal; exact inferInstance

/-- A request that changes the game: a move attempt on a column (`/play`) or
a reset (`/reset`). -/
inductive Request where
  | play (col : Int)
  | reset
  deriving DecidableEq

/-- The game after one request.  A reset whose `makeBoard` panics leaves the
game as it was. -/
def serve (g : Game) : Request → Game
  | .play col => (playHandler g col).2
  | .reset =>
    match resetHandler g with
    | .ok next => next
    | .error _ => g

/-- The game after a sequence of requests, served in order. -/
def serveAll (g : Game) (reqs : List Request) : Game := reqs.foldl serve g

/-- The states reachable from a freshly created game with positive
dimensions by any sequence of move attempts and resets. -/
def Reachable (g : Game) : Prop :=
  ∃ (player1 player2 : String) (rows cols : Int) (fresh : Game) (reqs : List Request),
    0 < rows ∧ 0 < cols ∧ createGame player1 player2 rows cols = .ok fresh ∧
      serveAll fresh reqs = g

/-- The game `playHandler` leaves after an accepted move: `next` is the board
with the token placed and `won` the answer of `checkWin`. -/
def moved (g : Game) (next : Grid) (won : Bool) : Game :=
  if won then
    { g with Board := next, TurnCount := g.TurnCount + 1, Winner := g.CurrentPlayer }
  else if checkDraw next then
    { g with Board := next, TurnCount := g.TurnCount + 1, IsDraw := true }
  else
    { g with Board := next, TurnCount := g.TurnCount + 1,
             CurrentPlayer := 3 - g.CurrentPlayer }

/-- The invariant carried along every run of the engine. -/
def Inv (g : Game) : Prop :=
  g.WellFormed ∧ 0 < g.Rows ∧ 0 < g.Cols ∧
    (g.CurrentPlayer = 1 ∨ g.CurrentPlayer = 2) ∧
    (g.Winner = 0 ∨ g.Winner = 1 ∨ g.Winner = 2) ∧
    ¬ (g.Winner ≠ 0 ∧ g.IsDraw = true) ∧
    ∀ p : Int, p = 1 ∨ p = 2 → (g.Winner = p ↔ HasFour g.Board p)

/-- The value a list of placed tokens `(row, column, player)` records for
cell `(r, c)`: the player of the first token at that cell, zero when no token
is there. -/
def tokenAt : List (Int × Int × Int) → Int → Int → Int
  | [], _, _ => 0
  | (tr, tc, tv) :: rest, r, c => if r = tr ∧ c = tc then tv else tokenAt rest r c

/-- The list of tokens accounts for every cell of the board. -/
def Describes (toks : List (Int × Int × Int)) (board : Grid) : Prop :=
  ∀ r c x : Int, cellAt board r c = .ok x → x = tokenAt toks r c

/-- The number of tokens of the list that lie in column `col`. -/
def inColumn (toks : List (Int × Int × Int)) (col : Int) : Nat :=
  (toks.filter fun t => decide (t.2.1 = col)).length

/-- The number of tokens of the list that belong to player `p`. -/
def ofPlayer (toks : List (Int × Int × Int)) (p : Int) : Nat :=
  (toks.filter fun t => decide (t.2.2 = p)).length

/-- A game in progress on a `rows` x `cols` board: it satisfies the invariant,
its board is described by `toks`, player `p` is to move, nobody has won, it is
not a draw and `n` moves have been accepted. -/
def InPlay (g : Game) (toks : List (Int × Int × Int)) (p n rows cols : Int) : Prop :=
  Inv g ∧ Describes toks g.Board ∧ g.CurrentPlayer = p ∧ g.Winner = 0 ∧ g.IsDraw = false ∧
    g.TurnCount = n ∧ g.Rows = rows ∧ g.Cols = cols

/-- The number of cells of the board whose value satisfies `f`. -/
def countCells (f : Int → Bool) (board : Grid) : Nat := (board.map (List.countP f)).sum

/-- The number of occupied (non-zero) cells of the board. -/
def occupied (board : Grid) : Nat := countCells (fun x => decide (x ≠ 0)) board

/-- The number of cells of the board that hold `v`. -/
def holding (v : Int) (board : Grid) : Nat := countCells (fun x => decide (x = v)) board

/-- Gravity: below an occupied cell, every cell of the same column down to
the last row is occupied. -/
def Gravity (board : Grid) : Prop :=
  ∀ r r2 c v : Int, r < r2 → cellAt board r c = .ok v → v ≠ 0 → cellAt board r2 c ≠ .ok 0

/-- The counting invariant carried along every run of the engine: gravity,
`TurnCount` is the number of occupied cells, every cell is 0, 1 or 2, the
tokens of the two players are counted in step with `CurrentPlayer`, a won
game keeps the winner as `CurrentPlayer`, and a game that is not terminal has
a free cell. -/
def Counted (g : Game) : Prop :=
  Gravity g.Board ∧
    g.TurnCount = (occupied g.Board : Int) ∧
    (∀ r c v : Int, cellAt g.Board r c = .ok v → v = 0 ∨ v = 1 ∨ v = 2) ∧
    occupied g.Board = holding 1 g.Board + holding 2 g.Board ∧
    (g.Terminal →
      (g.CurrentPlayer = 1 ∧ holding 1 g.Board = holding 2 g.Board + 1) ∨
        (g.CurrentPlayer = 2 ∧ holding 1 g.Board = holding 2 g.Board)) ∧
    (¬ g.Terminal →
      (g.CurrentPlayer = 1 ∧ holding 1 g.Board = holding 2 g.Board) ∨
        (g.CurrentPlayer = 2 ∧ holding 1 g.Board = holding 2 g.Board + 1)) ∧
    (g.Winner ≠ 0 → g.CurrentPlayer = g.Winner) ∧
    (¬ g.Terminal → ∃ r c : Int, cellAt g.Board r c = .ok 0)

/-! ## Concrete games and boards used to instantiate the theorems -/

/-- A 2 x 2 game after one move: player 2 is to move. -/
def sample : Game :=
  { Board := [[0, 0], [1, 0]], CurrentPlayer := 2, Winner := 0, IsDraw := false,
    Player1Name := "ann", Player2Name := "bob", Rows := 2, Cols := 2, TurnCount := 1 }

/-- A 4 x 4 board in which player 1 has filled the bottom row. -/
def bottomRow : Grid := [[0, 0, 0, 0], [0, 0, 0, 0], [2, 2, 2, 0], [1, 1, 1, 1]]

/-- The game `startHandler` builds for difficulty "easy": 6 rows, 7 columns. -/
def fresh67 : Game :=
  { Board := [[0, 0, 0, 0, 0, 0, 0], [0, 0, 0, 0, 0, 0, 0], [0, 0, 0, 0, 0, 0, 0],
              [0, 0, 0, 0, 0, 0, 0], [0, 0, 0, 0, 0, 0, 0], [0, 0, 0, 0, 0, 0, 0]],
    CurrentPlayer := 1, Winner := 0, IsDraw := false,
    Player1Name := "ann", Player2Name := "bob", Rows := 6, Cols := 7, TurnCount := 0 }

/-- Player 1 drops four times into column 3, player 2 three times into
column 0. -/
def columnThree : List Request :=
  [.play 3, .play 0, .play 3, .play 0, .play 3, .play 0, .play 3]

/-- The game `fresh67` after the requests `columnThree`: player 1 has won
with four tokens in column 3. -/
def won67 : Game :=
  { Board := [[0, 0, 0, 0, 0, 0, 0], [0, 0, 0, 0, 0, 0, 0], [0, 0, 0, 1, 0, 0, 0],
              [2, 0, 0, 1, 0, 0, 0], [2, 0, 0, 1, 0, 0, 0], [2, 0, 0, 1, 0, 0, 0]],
    CurrentPlayer := 1, Winner := 1, IsDraw := false,
    Player1Name := "ann", Player2Name := "bob", Rows := 6, Cols := 7, TurnCount := 7 }

/-- A game on a board of one cell. -/
def fresh11 : Game :=
  { Board := [[0]], CurrentPlayer := 1, Winner := 0, IsDraw := false,
    Player1Name := "ann", Player2Name := "bob", Rows := 1, Cols := 1, TurnCount := 0 }

/-- A fresh game on a board of one row and seven columns. -/
def fresh17 : Game :=
  { Board := [[0, 0, 0, 0, 0, 0, 0]], CurrentPlayer := 1, Winner := 0, IsDraw := false,
    Player1Name := "ann", Player2Name := "bob", Rows := 1, Cols := 7, TurnCount := 0 }

/-- Six moves on the one-row board that leave only column 2 free. -/
def sixMoves : List Request := [.play 0, .play 4, .play 1, .play 5, .play 3, .play 6]

/-- The game `fresh17` after `sixMoves`: player 1 is to move and the only
free cell would complete four in a row. -/
def lastCell17 : Game :=
  { Board := [[1, 1, 0, 1, 2, 2, 2]], CurrentPlayer := 1, Winner := 0, IsDraw := false,
    Player1Name := "ann", Player2Name := "bob", Rows := 1, Cols := 7, TurnCount := 6 }

/-- A 4 x 4 board in which the longest run of player 1 has three cells. -/
def threeRow : Grid := [[0, 0, 0, 0], [0, 0, 0, 0], [2, 2, 0, 0], [1, 1, 1, 0]]

/-- A one-row board with three tokens of player 1 to the left of an empty
cell. -/
def threeLeft : Grid := [[1, 1, 1, 0]]

/-! ## Indexing -/

theorem index_eq_ok {α : Type} (s : List α) (i : Int) (a : α) :
    index s i = .ok a ↔ 0 ≤ i ∧ s[i.toNat]? = some a := by
  unfold index
  split
  · constructor
    · intro h; cases h
    · intro h; omega
  · cases h : s[i.toNat]? <;> simp
    omega

theorem cellAt_eq_ok (board : Grid) (r c v : Int) :
    cellAt board r c = .ok v ↔
      0 ≤ r ∧ 0 ≤ c ∧ ∃ ln, board[r.toNat]? = some ln ∧ ln[c.toNat]? = some v := by
  unfold cellAt
  cases h : index board r with
  | error f =>
    simp only [bind, Except.bind]
    constructor
    · intro h2; cases h2
    · rintro ⟨h1, _, ln, h3, _⟩
      have := (index_eq_ok board r ln).2 ⟨h1, h3⟩
      rw [h] at this; cases this
  | ok ln =>
    simp only [bind, Except.bind]
    rw [index_eq_ok] at h
    rw [index_eq_ok]
    constructor
    · rintro ⟨h1, h2⟩
      exact ⟨h.1, h1, ln, h.2, h2⟩
    · rintro ⟨_, h2, ln2, h3, h4⟩
      rw [h.2] at h3
      cases h3
      exact ⟨h2, h4⟩

theorem width_of_mem {board : Grid} (hrect : Rectangular board) {ln : List Int} {i : Nat}
    (h : board[i]? = some ln) : ln.length = width board :=
  hrect ln (List.getElem?_mem h)

theorem inGrid_of_cellAt {board : Grid} (hrect : Rectangular board) {r c v : Int}
    (h : cellAt board r c = .ok v) : InGrid board r c := by
  rw [cellAt_eq_ok] at h
  obtain ⟨h1, h2, ln, h3, h4⟩ := h
  have hw := width_of_mem hrect h3
  have h5 := (List.getElem?_eq_some_iff.1 h3).1
  have h6 := (List.getElem?_eq_some_iff.1 h4).1
  unfold InGrid
  omega

theorem cellAt_of_inGrid {board : Grid} (hrect : Rectangular board) {r c : Int}
    (h : InGrid board r c) : ∃ v, cellAt board r c = .ok v := by
  obtain ⟨h1, h2, h3, h4⟩ := h
  have h5 : r.toNat < board.length := by omega
  have hln : board[r.toNat]? = some (board[r.toNat]) := List.getElem?_eq_getElem h5
  have hw := width_of_mem hrect hln
  have h6 : c.toNat < (board[r.toNat]).length := by omega
  exact ⟨(board[r.toNat])[c.toNat], (cellAt_eq_ok board r c _).2
    ⟨h1, h3, board[r.toNat], hln, List.getElem?_eq_getElem h6⟩⟩

/-! ## The direction loop -/

theorem index_zero_of_pos {board : Grid} (h : 0 < board.length) :
    index board 0 = .ok (board.headD []) := by
  cases board with
  | nil => simp at h
  | cons a rest => simp [index]

/-- On a rectangular board one evaluation of the loop of `countInDirection`
either stops (the cell is outside the grid or differs from `player`) or moves
one step on with the count increased. -/
theorem countLoop_step {board : Grid} (hrect : Rectangular board)
    (player dRow dCol : Int) (fuel : Nat) (r c count : Int) :
    countLoop board player dRow dCol (fuel + 1) r c count =
      if cellAt board r c = .ok player then
        countLoop board player dRow dCol fuel (r + dRow) (c + dCol) (count + 1)
      else .ok count := by
  rw [countLoop]
  by_cases hr : r ≥ 0 ∧ r < (board.length : Int)
  · rw [if_pos hr, index_zero_of_pos (by omega)]
    simp only [bind, Except.bind]
    by_cases hc : c ≥ 0 ∧ c < ((board.headD []).length : Int)
    · rw [if_pos hc]
      obtain ⟨v, hv⟩ := cellAt_of_inGrid hrect (r := r) (c := c) ⟨hr.1, hr.2, hc.1, hc.2⟩
      rw [hv]
      by_cases hvp : v = player
      · simp [hvp]
      · have : ¬ (Except.ok v : Except Fault Int) = Except.ok player := by
          intro h; cases h; exact hvp rfl
        simp [hvp, this]
    · rw [if_neg hc]
      have : ¬ cellAt board r c = .ok player := by
        intro h
        have := inGrid_of_cellAt hrect h
        unfold InGrid width at this
        omega
      rw [if_neg this]
  · rw [if_neg hr]
    have : ¬ cellAt board r c = .ok player := by
      intro h
      have := inGrid_of_cellAt hrect h
      unfold InGrid at this
      omega
    rw [if_neg this]

theorem stepsLeft_pos {board : Grid} {dRow dCol r c : Int} (hd : dRow ≠ 0 ∨ dCol ≠ 0)
    (h : InGrid board r c) : 0 < stepsLeft board dRow dCol r c := by
  unfold stepsLeft
  rw [if_pos h]
  unfold InGrid at h
  split_ifs <;> omega

theorem stepsLeft_next {board : Grid} {dRow dCol r c : Int} (hd : dRow ≠ 0 ∨ dCol ≠ 0)
    (h : InGrid board r c) :
    stepsLeft board dRow dCol (r + dRow) (c + dCol) < stepsLeft board dRow dCol r c := by
  have hpos := stepsLeft_pos hd h
  by_cases h2 : InGrid board (r + dRow) (c + dCol)
  · unfold stepsLeft
    rw [if_pos h, if_pos h2]
    unfold InGrid at h h2
    split_ifs <;> omega
  · have : stepsLeft board dRow dCol (r + dRow) (c + dCol) = 0 := by
      unfold stepsLeft; rw [if_neg h2]
    omega

theorem stepsLeft_le (board : Grid) (dRow dCol r c : Int) :
    stepsLeft board dRow dCol r c ≤ board.length + width board := by
  unfold stepsLeft
  by_cases h : InGrid board r c
  · rw [if_pos h]
    unfold InGrid at h
    split_ifs <;> omega
  · rw [if_neg h]; omega

/-- With a non-zero direction and enough iterations the loop returns
`count + k`, where the `k` cells met from `(r, c)` on all hold `player` and
the next one is outside the grid or holds something else. -/
theorem countLoop_spec {board : Grid} (hrect : Rectangular board)
    (player dRow dCol : Int) (hd : dRow ≠ 0 ∨ dCol ≠ 0) :
    ∀ (fuel : Nat) (r c count : Int), stepsLeft board dRow dCol r c < fuel →
      ∃ k : Nat, countLoop board player dRow dCol fuel r c count = .ok (count + k) ∧
        (∀ i : Nat, i < k → cellAt board (r + i * dRow) (c + i * dCol) = .ok player) ∧
        cellAt board (r + k * dRow) (c + k * dCol) ≠ .ok player := by
  intro fuel
  induction fuel with
  | zero => intro r c count h; omega
  | succ fuel ih =>
    intro r c count hfuel
    rw [countLoop_step hrect]
    by_cases hcell : cellAt board r c = .ok player
    · rw [if_pos hcell]
      have hin := inGrid_of_cellAt hrect hcell
      have hnext : stepsLeft board dRow dCol (r + dRow) (c + dCol) < stepsLeft board dRow dCol r c :=
        stepsLeft_next hd hin
      obtain ⟨k, hk1, hk2, hk3⟩ := ih (r + dRow) (c + dCol) (count + 1) (by omega)
      refine ⟨k + 1, ?_, ?_, ?_⟩
      · rw [hk1]; push_cast; congr 1; ring
      · intro i hi
        cases i with
        | zero => simpa using hcell
        | succ j =>
          have := hk2 j (by omega)
          have e1 : r + ((j + 1 : Nat) : Int) * dRow = r + dRow + (j : Int) * dRow := by
            push_cast; ring
          have e2 : c + ((j + 1 : Nat) : Int) * dCol = c + dCol + (j : Int) * dCol := by
            push_cast; ring
          rw [e1, e2]; exact this
      · have e1 : r + ((k + 1 : Nat) : Int) * dRow = r + dRow + (k : Int) * dRow := by
          push_cast; ring
        have e2 : c + ((k + 1 : Nat) : Int) * dCol = c + dCol + (k : Int) * dCol := by
          push_cast; ring
        rw [e1, e2]; exact hk3
    · rw [if_neg hcell]
      exact ⟨0, by simp, by intro i hi; omega, by simpa using hcell⟩

/-- Function `countInDirection` returns, for a non-zero direction on a
rectangular board, the length `k` of the run of `player` cells that starts
next to `(row, col)`: cells `1..k` along the direction hold `player`, cell
`k + 1` is outside the grid or holds something else. -/
theorem countInDirection_spec {board : Grid} (hrect : Rectangular board)
    (row col player dRow dCol : Int) (hd : dRow ≠ 0 ∨ dCol ≠ 0) :
    ∃ k : Nat, countInDirection board row col player dRow dCol = .ok (k : Int) ∧
      (∀ i : Nat, 1 ≤ i → i ≤ k →
        cellAt board (row + i * dRow) (col + i * dCol) = .ok player) ∧
      cellAt board (row + ((k : Int) + 1) * dRow) (col + ((k : Int) + 1) * dCol) ≠ .ok player := by
  have hle := stepsLeft_le board dRow dCol (row + dRow) (col + dCol)
  obtain ⟨k, hk1, hk2, hk3⟩ := countLoop_spec hrect player dRow dCol hd (loopBound board)
    (row + dRow) (col + dCol) 0 (by unfold loopBound; omega)
  refine ⟨k, ?_, ?_, ?_⟩
  · unfold countInDirection; rw [hk1]; simp
  · intro i h1 h2
    have := hk2 (i - 1) (by omega)
    have e1 : row + (i : Int) * dRow = row + dRow + ((i - 1 : Nat) : Int) * dRow := by
      rw [Nat.cast_sub h1]; push_cast; ring
    have e2 : col + (i : Int) * dCol = col + dCol + ((i - 1 : Nat) : Int) * dCol := by
      rw [Nat.cast_sub h1]; push_cast; ring
    rw [e1, e2]; exact this
  · have e1 : row + ((k : Int) + 1) * dRow = row + dRow + (k : Int) * dRow := by ring
    have e2 : col + ((k : Int) + 1) * dCol = col + dCol + (k : Int) * dCol := by ring
    rw [e1, e2]; exact hk3

/-! ## The win check -/

theorem orElse_ok (x y : Bool) : orElse (.ok x) (.ok y) = .ok (x || y) := by
  cases x <;> rfl

/-- A line through `(row, col)` cannot reach further than the runs counted
on either side. -/
theorem line_le_runs {board : Grid} {player row col dRow dCol : Int} {a b k1 k2 : Nat}
    (hline : Line board player row col dRow dCol a b)
    (h1 : cellAt board (row + ((k1 : Int) + 1) * dRow) (col + ((k1 : Int) + 1) * dCol)
      ≠ .ok player)
    (h2 : cellAt board (row + ((k2 : Int) + 1) * (-dRow)) (col + ((k2 : Int) + 1) * (-dCol))
      ≠ .ok player) :
    a ≤ k2 ∧ b ≤ k1 := by
  constructor
  · by_contra hlt
    apply h2
    have := hline (-((k2 : Int) + 1)) (by omega) (by omega)
    have e1 : row + ((k2 : Int) + 1) * (-dRow) = row + (-((k2 : Int) + 1)) * dRow := by ring
    have e2 : col + ((k2 : Int) + 1) * (-dCol) = col + (-((k2 : Int) + 1)) * dCol := by ring
    rw [e1, e2]; exact this
  · by_contra hlt
    apply h1
    exact hline ((k1 : Int) + 1) (by omega) (by omega)

/-- Function `checkDirection` on a rectangular board, for a non-zero
direction and a centre cell holding `player`: it returns normally, and the
answer is `true` exactly when some line of at least four cells of `player`
along the direction contains `(row, col)`. -/
theorem checkDirection_spec {board : Grid} (hrect : Rectangular board)
    (row col player dRow dCol : Int) (hd : dRow ≠ 0 ∨ dCol ≠ 0)
    (hcell : cellAt board row col = .ok player) :
    ∃ res : Bool, checkDirection board row col player dRow dCol = .ok res ∧
      (res = true ↔ ∃ a b : Nat, 4 ≤ a + b + 1 ∧ Line board player row col dRow dCol a b) := by
  obtain ⟨k1, hk1, hrun1, hend1⟩ := countInDirection_spec hrect row col player dRow dCol hd
  obtain ⟨k2, hk2, hrun2, hend2⟩ :=
    countInDirection_spec hrect row col player (-dRow) (-dCol) (by omega)
  refine ⟨decide ((1 : Int) + k1 + k2 ≥ 4), ?_, ?_⟩
  · unfold checkDirection
    rw [hk1, hk2]
    rfl
  · rw [decide_eq_true_iff]
    constructor
    · intro h
      refine ⟨k2, k1, by omega, ?_⟩
      intro i hlo hhi
      rcases lt_trichotomy i 0 with hneg | hzero | hpos
      · have := hrun2 (-i).toNat (by omega) (by omega)
        have e : (((-i).toNat : Nat) : Int) = -i := Int.toNat_of_nonneg (by omega)
        rw [e] at this
        have e1 : row + i * dRow = row + -i * -dRow := by ring
        have e2 : col + i * dCol = col + -i * -dCol := by ring
        rw [e1, e2]; exact this
      · subst hzero; simpa using hcell
      · have := hrun1 i.toNat (by omega) (by omega)
        have e : ((i.toNat : Nat) : Int) = i := Int.toNat_of_nonneg (by omega)
        rw [e] at this
        exact this
    · rintro ⟨a, b, hab, hline⟩
      have := line_le_runs hline hend1 hend2
      omega

/-- The lines of at least four cells of `player` through `(row, col)` in one
of the four orientations. -/
theorem checkWin_spec {board : Grid} (hrect : Rectangular board)
    (row col player : Int) (hcell : cellAt board row col = .ok player) :
    ∃ res : Bool, checkWin board row col player = .ok res ∧
      (res = true ↔ ∃ d ∈ orientations, ∃ a b : Nat, 4 ≤ a + b + 1 ∧
        Line board player row col d.1 d.2 a b) := by
  obtain ⟨r1, h1, e1⟩ := checkDirection_spec hrect row col player 0 1 (by omega) hcell
  obtain ⟨r2, h2, e2⟩ := checkDirection_spec hrect row col player 1 0 (by omega) hcell
  obtain ⟨r3, h3, e3⟩ := checkDirection_spec hrect row col player 1 1 (by omega) hcell
  obtain ⟨r4, h4, e4⟩ := checkDirection_spec hrect row col player 1 (-1) (by omega) hcell
  refine ⟨r1 || (r2 || (r3 || r4)), ?_, ?_⟩
  · unfold checkWin
    rw [h1, h2, h3, h4, orElse_ok, orElse_ok, orElse_ok]
  · simp only [Bool.or_eq_true, e1, e2, e3, e4, orientations, List.mem_cons,
      List.mem_singleton, List.not_mem_nil, or_false, exists_eq_or_imp, exists_eq_left]

/-! ## Landing row, draw check, board construction -/

/-- The loop of `findRow` over the rows below index `n`, on a rectangular
board and a column inside it: it returns normally, either `-1` with no zero
cell among rows `0..n-1` of the column, or the largest row index below `n`
whose cell is zero. -/
theorem findRowLoop_spec {board : Grid} (hrect : Rectangular board) (col : Int)
    (hcol : 0 ≤ col ∧ col < (width board : Int)) :
    ∀ n : Nat, n ≤ board.length →
      ∃ r : Int, findRowLoop board col n = .ok r ∧
        ((r = -1 ∧ ∀ i : Nat, i < n → cellAt board (i : Int) col ≠ .ok 0) ∨
         (0 ≤ r ∧ r < (n : Int) ∧ cellAt board r col = .ok 0 ∧
           ∀ i : Nat, r < (i : Int) → i < n → cellAt board (i : Int) col ≠ .ok 0)) := by
  intro n
  induction n with
  | zero =>
    intro _
    exact ⟨-1, rfl, Or.inl ⟨rfl, by intro i hi; omega⟩⟩
  | succ n ih =>
    intro hn
    obtain ⟨v, hv⟩ := cellAt_of_inGrid hrect (r := (n : Int)) (c := col)
      ⟨by omega, by omega, hcol.1, hcol.2⟩
    rw [findRowLoop, hv]
    simp only [bind, Except.bind]
    by_cases hz : v = 0
    · subst hz
      refine ⟨n, by simp, Or.inr ⟨by omega, by push_cast; omega, hv, ?_⟩⟩
      intro i h1 h2; omega
    · obtain ⟨r, hr, hcase⟩ := ih (by omega)
      refine ⟨r, by simp [hz, hr], ?_⟩
      have hn0 : cellAt board (n : Int) col ≠ .ok 0 := by
        rw [hv]; intro h; cases h; exact hz rfl
      rcases hcase with ⟨h1, h2⟩ | ⟨h1, h2, h3, h4⟩
      · left
        refine ⟨h1, ?_⟩
        intro i hi
        by_cases hin : i = n
        · subst hin; exact hn0
        · exact h2 i (by omega)
      · right
        refine ⟨h1, by push_cast; omega, h3, ?_⟩
        intro i hi1 hi2
        by_cases hin : i = n
        · subst hin; exact hn0
        · exact h4 i hi1 (by omega)

/-- Function `checkDraw` answers `true` exactly when no cell of the board is
zero. -/
theorem checkDraw_spec (board : Grid) :
    checkDraw board = true ↔ ∀ ln ∈ board, ∀ cell ∈ ln, cell ≠ 0 := by
  induction board with
  | nil => simp [checkDraw]
  | cons ln rest ih =>
    rw [checkDraw]
    by_cases h : ln.any (fun cell => decide (cell = 0)) = true
    · rw [if_pos h]
      simp only [List.any_eq_true, decide_eq_true_eq] at h
      obtain ⟨x, hx, hx0⟩ := h
      constructor
      · intro hf; cases hf
      · intro hall
        exact absurd hx0 (hall ln (List.mem_cons_self _ _) x hx)
    · rw [if_neg h, ih]
      simp only [List.any_eq_true, decide_eq_true_eq, not_exists, not_and] at h
      constructor
      · intro hall l hl
        rcases List.mem_cons.1 hl with rfl | hl
        · exact h
        · exact hall l hl
      · intro hall l hl
        exact hall l (List.mem_cons_of_mem _ hl)

theorem makeRows_ok (cols : Int) (hcols : 0 ≤ cols) (outer : List (List Int)) :
    makeRows cols outer =
      .ok (List.replicate outer.length (List.replicate cols.toNat (0 : Int))) := by
  induction outer with
  | nil => rfl
  | cons a rest ih =>
    rw [makeRows, ih]
    simp only [make, bind, Except.bind]
    rw [if_neg (by omega)]
    rfl

/-- Function `makeBoard` with non-negative dimensions returns normally the
grid of `rows` rows of `cols` zeros. -/
theorem makeBoard_ok (rows cols : Int) (hrows : 0 ≤ rows) (hcols : 0 ≤ cols) :
    makeBoard rows cols =
      .ok (List.replicate rows.toNat (List.replicate cols.toNat (0 : Int))) := by
  unfold makeBoard
  simp only [make, bind, Except.bind]
  rw [if_neg (by omega)]
  simp only [makeRows_ok cols hcols, List.length_replicate]

theorem width_set_row {board : Grid} (hrect : Rectangular board) (i : Nat) (ln : List Int)
    (hln : ln.length = width board) : width (board.set i ln) = width board := by
  cases board with
  | nil => rfl
  | cons a rest =>
    cases i with
    | zero => simpa [width] using hln
    | succ j => simp [width]

/-- Assigning to a cell inside a rectangular grid returns normally; the new
grid has the same number of rows, is rectangular of the same width, holds the
new value at the cell and the old values everywhere else. -/
theorem setCell_spec {board : Grid} (hrect : Rectangular board) {row col : Int}
    (hin : InGrid board row col) (v : Int) :
    ∃ next : Grid, setCell board row col v = .ok next ∧
      next.length = board.length ∧ Rectangular next ∧ width next = width board ∧
      ∀ r c x : Int, cellAt next r c = .ok x ↔
        ((r = row ∧ c = col ∧ x = v) ∨ (¬ (r = row ∧ c = col) ∧ cellAt board r c = .ok x)) := by
  obtain ⟨h1, h2, h3, h4⟩ := hin
  have hr : row.toNat < board.length := by omega
  have hln : board[row.toNat]? = some (board[row.toNat]) := List.getElem?_eq_getElem hr
  have hw := width_of_mem hrect hln
  have hc : col.toNat < (board[row.toNat]).length := by omega
  have hidx : index board row = .ok (board[row.toNat]) := (index_eq_ok _ _ _).2 ⟨h1, hln⟩
  have hlen : ((board[row.toNat]).set col.toNat v).length = width board := by
    rw [List.length_set]; exact hw
  have hwidth := width_set_row hrect row.toNat ((board[row.toNat]).set col.toNat v) hlen
  refine ⟨board.set row.toNat ((board[row.toNat]).set col.toNat v), ?_, ?_, ?_, hwidth, ?_⟩
  · unfold setCell
    rw [hidx]
    simp only [bind, Except.bind, assign]
    rw [if_neg (by omega), if_pos hc]
    simp only []
    rw [if_neg (by omega), if_pos hr]
  · rw [List.length_set]
  · intro ln hmem
    rw [hwidth]
    rcases List.mem_or_eq_of_mem_set hmem with h | h
    · exact hrect ln h
    · rw [h]; exact hlen
  · intro r c x
    rw [cellAt_eq_ok, cellAt_eq_ok]
    by_cases hrr : r = row
    · subst hrr
      by_cases hcc : c = col
      · subst hcc
        simp only [true_and, not_true_eq_false, false_and, or_false]
        constructor
        · rintro ⟨_, _, ln, e1, e2⟩
          rw [List.getElem?_set_self hr] at e1
          cases e1
          rw [List.getElem?_set_self hc] at e2
          cases e2; rfl
        · rintro rfl
          exact ⟨h1, h3, _, List.getElem?_set_self hr, List.getElem?_set_self hc⟩
      · simp only [hcc, and_false, false_and, not_false_eq_true, true_and, false_or]
        constructor
        · rintro ⟨a1, a2, ln, e1, e2⟩
          rw [List.getElem?_set_self hr] at e1
          cases e1
          rw [List.getElem?_set_ne (by omega)] at e2
          exact ⟨a1, a2, _, hln, e2⟩
        · rintro ⟨a1, a2, ln, e1, e2⟩
          rw [hln] at e1
          cases e1
          refine ⟨a1, a2, _, List.getElem?_set_self hr, ?_⟩
          rw [List.getElem?_set_ne (by omega)]
          exact e2
    · simp only [hrr, false_and, not_false_eq_true, true_and, false_or]
      constructor
      · rintro ⟨a1, a2, ln, e1, e2⟩
        rw [List.getElem?_set_ne (by omega)] at e1
        exact ⟨a1, a2, ln, e1, e2⟩
      · rintro ⟨a1, a2, ln, e1, e2⟩
        refine ⟨a1, a2, ln, ?_, e2⟩
        rw [List.getElem?_set_ne (by omega)]
        exact e1

/-! ## The move step -/

theorem rectangular_of_wellFormed {g : Game} (hwf : g.WellFormed) : Rectangular g.Board := by
  intro ln hln
  unfold width
  cases hb : g.Board with
  | nil => rw [hb] at hln; cases hln
  | cons a rest =>
    have h1 := hwf.2 ln hln
    have h2 := hwf.2 a (by rw [hb]; exact List.mem_cons_self _ _)
    simp only [List.headD_cons]
    omega

theorem width_of_wellFormed {g : Game} (hwf : g.WellFormed) (hne : 0 < g.Board.length) :
    (width g.Board : Int) = g.Cols := by
  unfold width
  cases hb : g.Board with
  | nil => rw [hb] at hne; simp at hne
  | cons a rest =>
    have h2 := hwf.2 a (by rw [hb]; exact List.mem_cons_self _ _)
    simpa using h2

/-- Function `findRow` on a rectangular board and a column inside it returns
normally: `-1` when no cell of the column is zero, otherwise the largest row
index whose cell in the column is zero. -/
theorem findRow_spec {board : Grid} (hrect : Rectangular board) (col : Int)
    (hcol : 0 ≤ col ∧ col < (width board : Int)) :
    ∃ r : Int, findRow board col = .ok r ∧
      ((r = -1 ∧ ∀ i : Int, cellAt board i col ≠ .ok 0) ∨
       (0 ≤ r ∧ r < (board.length : Int) ∧ cellAt board r col = .ok 0 ∧
         ∀ i : Int, r < i → cellAt board i col ≠ .ok 0)) := by
  obtain ⟨r, hr, hcase⟩ := findRowLoop_spec hrect col hcol board.length (le_refl _)
  refine ⟨r, hr, ?_⟩
  rcases hcase with ⟨h1, h2⟩ | ⟨h1, h2, h3, h4⟩
  · left
    refine ⟨h1, ?_⟩
    intro i hi
    have hin := inGrid_of_cellAt hrect hi
    have := h2 i.toNat (by unfold InGrid at hin; omega)
    rw [Int.toNat_of_nonneg hin.1] at this
    exact this hi
  · right
    refine ⟨h1, h2, h3, ?_⟩
    intro i hlt hi
    have hin := inGrid_of_cellAt hrect hi
    have := h4 i.toNat (by omega) (by unfold InGrid at hin; omega)
    rw [Int.toNat_of_nonneg hin.1] at this
    exact this hi

theorem findRow_nil (col : Int) : findRow [] col = .ok (-1) := rfl

/-- The path through `playHandler` that ends in an accepted move: all three
guards are passed, `findRow`, the cell assignment and `checkWin` return
normally, and the game is left as `moved` describes. -/
theorem playHandler_accepted {g : Game} {col : Int}
    (h : (playHandler g col).1 = .Accepted) :
    0 ≤ col ∧ col < g.Cols ∧ g.Winner = 0 ∧ g.IsDraw = false ∧
      ∃ (row : Int) (next : Grid) (won : Bool),
        findRow g.Board col = .ok row ∧ row ≠ -1 ∧
        setCell g.Board row col g.CurrentPlayer = .ok next ∧
        checkWin next row col g.CurrentPlayer = .ok won ∧
        playHandler g col = (.Accepted, moved g next won) := by
  unfold playHandler at h ⊢
  by_cases h1 : col < 0 ∨ col ≥ g.Cols
  · rw [if_pos h1] at h; cases h
  rw [if_neg h1] at h ⊢
  by_cases h2 : g.Winner ≠ 0 ∨ g.IsDraw = true
  · rw [if_pos h2] at h; cases h
  rw [if_neg h2] at h ⊢
  have hw : g.Winner = 0 := by by_contra hne; exact h2 (Or.inl hne)
  have hdraw : g.IsDraw = false := by
    cases hd : g.IsDraw with
    | false => rfl
    | true => exact absurd (Or.inr hd) h2
  refine ⟨by omega, by omega, hw, hdraw, ?_⟩
  cases hfr : findRow g.Board col with
  | error f => rw [hfr] at h; cases h
  | ok row =>
    rw [hfr] at h
    simp only [] at h ⊢
    by_cases h3 : row = -1
    · rw [if_pos h3] at h; cases h
    rw [if_neg h3] at h ⊢
    cases hset : setCell g.Board row col g.CurrentPlayer with
    | error f => rw [hset] at h; cases h
    | ok next =>
      rw [hset] at h
      simp only [] at h ⊢
      cases hwin : checkWin next row col g.CurrentPlayer with
      | error f => rw [hwin] at h; cases h
      | ok won =>
        refine ⟨row, next, won, rfl, h3, hset, hwin, ?_⟩
        cases won with
        | true => simp [moved]
        | false =>
          by_cases hd : checkDraw next = true
          · simp [moved, hd]
          · simp [moved, hd]

theorem playHandler_eq_moved {g : Game} {col row : Int} {next : Grid} {won : Bool}
    (h1 : ¬ (col < 0 ∨ col ≥ g.Cols)) (h2 : ¬ (g.Winner ≠ 0 ∨ g.IsDraw = true))
    (hfr : findRow g.Board col = .ok row) (h3 : row ≠ -1)
    (hset : setCell g.Board row col g.CurrentPlayer = .ok next)
    (hwin : checkWin next row col g.CurrentPlayer = .ok won) :
    playHandler g col = (.Accepted, moved g next won) := by
  unfold playHandler
  rw [if_neg h1, if_neg h2, hfr]
  simp only []
  rw [if_neg h3, hset]
  simp only []
  rw [hwin]
  cases won with
  | true => simp [moved]
  | false =>
    by_cases hd : checkDraw next = true
    · simp [moved, hd]
    · simp [moved, hd]

/-- Every way `playHandler` can end on a well-formed game: turned down by one
of the three guards with the game untouched, or accepted with the token
placed in the landing cell.  No path panics. -/
theorem playHandler_cases {g : Game} (hwf : g.WellFormed) (col : Int) :
    (playHandler g col = (.Rejected .InvalidColumn, g) ∧ (col < 0 ∨ g.Cols ≤ col)) ∨
    (playHandler g col = (.Rejected .GameAlreadyOver, g) ∧
      0 ≤ col ∧ col < g.Cols ∧ g.Terminal) ∨
    (playHandler g col = (.Rejected .ColumnFull, g) ∧
      0 ≤ col ∧ col < g.Cols ∧ ¬ g.Terminal ∧ findRow g.Board col = .ok (-1) ∧
      ∀ i : Int, cellAt g.Board i col ≠ .ok 0) ∨
    (∃ (row : Int) (next : Grid) (won : Bool),
      0 ≤ col ∧ col < g.Cols ∧ ¬ g.Terminal ∧
      findRow g.Board col = .ok row ∧ InGrid g.Board row col ∧
      cellAt g.Board row col = .ok 0 ∧ (∀ i : Int, row < i → cellAt g.Board i col ≠ .ok 0) ∧
      setCell g.Board row col g.CurrentPlayer = .ok next ∧
      next.length = g.Board.length ∧ Rectangular next ∧ width next = width g.Board ∧
      (∀ r c x : Int, cellAt next r c = .ok x ↔
        ((r = row ∧ c = col ∧ x = g.CurrentPlayer) ∨
          (¬ (r = row ∧ c = col) ∧ cellAt g.Board r c = .ok x))) ∧
      checkWin next row col g.CurrentPlayer = .ok won ∧
      (won = true ↔ ∃ d ∈ orientations, ∃ a b : Nat, 4 ≤ a + b + 1 ∧
        Line next g.CurrentPlayer row col d.1 d.2 a b) ∧
      playHandler g col = (.Accepted, moved g next won)) := by
  have hrect := rectangular_of_wellFormed hwf
  by_cases h1 : col < 0 ∨ col ≥ g.Cols
  · left
    refine ⟨by unfold playHandler; rw [if_pos h1], by omega⟩
  by_cases h2 : g.Winner ≠ 0 ∨ g.IsDraw = true
  · right; left
    refine ⟨by unfold playHandler; rw [if_neg h1, if_pos h2], by omega, by omega, h2⟩
  right; right
  by_cases hlen : g.Board.length = 0
  · left
    have hnil : g.Board = [] := List.length_eq_zero.1 hlen
    refine ⟨?_, by omega, by omega, h2, by rw [hnil]; rfl, ?_⟩
    · unfold playHandler
      rw [if_neg h1, if_neg h2, hnil, findRow_nil]
      simp
    · intro i hi
      rw [hnil, cellAt_eq_ok] at hi
      obtain ⟨_, _, ln, e, _⟩ := hi
      simp at e
  have hwidth := width_of_wellFormed hwf (by omega)
  obtain ⟨row, hfr, hcase⟩ := findRow_spec hrect col ⟨by omega, by omega⟩
  rcases hcase with ⟨hm1, hfull⟩ | ⟨hr0, hr1, hzero, habove⟩
  · left
    subst hm1
    refine ⟨?_, by omega, by omega, h2, hfr, hfull⟩
    unfold playHandler
    rw [if_neg h1, if_neg h2, hfr]
    simp
  · right
    have hin : InGrid g.Board row col := ⟨hr0, hr1, by omega, by omega⟩
    obtain ⟨next, hset, hnl, hnr, hnw, hcells⟩ := setCell_spec hrect hin g.CurrentPlayer
    have hcentre : cellAt next row col = .ok g.CurrentPlayer :=
      (hcells row col g.CurrentPlayer).2 (Or.inl ⟨rfl, rfl, rfl⟩)
    obtain ⟨won, hwin, hwon⟩ := checkWin_spec hnr row col g.CurrentPlayer hcentre
    exact ⟨row, next, won, by omega, by omega, h2, hfr, hin, hzero, habove, hset, hnl, hnr,
      hnw, hcells, hwin, hwon, playHandler_eq_moved h1 h2 hfr (by omega) hset hwin⟩

/-! ## Runs of four and the invariant of reachable games -/

theorem moved_Board (g : Game) (next : Grid) (won : Bool) : (moved g next won).Board = next := by
  unfold moved; split_ifs <;> rfl

theorem moved_Rows (g : Game) (next : Grid) (won : Bool) : (moved g next won).Rows = g.Rows := by
  unfold moved; split_ifs <;> rfl

theorem moved_Cols (g : Game) (next : Grid) (won : Bool) : (moved g next won).Cols = g.Cols := by
  unfold moved; split_ifs <;> rfl

theorem moved_TurnCount (g : Game) (next : Grid) (won : Bool) :
    (moved g next won).TurnCount = g.TurnCount + 1 := by
  unfold moved; split_ifs <;> rfl

theorem moved_Winner (g : Game) (next : Grid) (won : Bool) :
    (moved g next won).Winner = if won then g.CurrentPlayer else g.Winner := by
  unfold moved; split_ifs <;> rfl

theorem moved_IsDraw (g : Game) (next : Grid) (won : Bool) :
    (moved g next won).IsDraw =
      if won then g.IsDraw else if checkDraw next then true else g.IsDraw := by
  unfold moved; split_ifs <;> rfl

theorem moved_CurrentPlayer (g : Game) (next : Grid) (won : Bool) :
    (moved g next won).CurrentPlayer =
      if won then g.CurrentPlayer
      else if checkDraw next then g.CurrentPlayer else 3 - g.CurrentPlayer := by
  unfold moved; split_ifs <;> rfl

theorem moved_names (g : Game) (next : Grid) (won : Bool) :
    (moved g next won).Player1Name = g.Player1Name ∧
      (moved g next won).Player2Name = g.Player2Name := by
  unfold moved; split_ifs <;> exact ⟨rfl, rfl⟩

/-- A line of at least four cells through a cell contains a run of four. -/
theorem hasFour_of_line {board : Grid} {p row col : Int} {d : Int × Int}
    (hd : d ∈ orientations) {a b : Nat} (hlen : 4 ≤ a + b + 1)
    (hline : Line board p row col d.1 d.2 a b) : HasFour board p := by
  refine ⟨row - (a : Int) * d.1, col - (a : Int) * d.2, d, hd, ?_⟩
  intro i hi
  have := hline ((i : Int) - (a : Int)) (by omega) (by omega)
  have e1 : row - (a : Int) * d.1 + (i : Int) * d.1 = row + ((i : Int) - (a : Int)) * d.1 := by
    ring
  have e2 : col - (a : Int) * d.2 + (i : Int) * d.2 = col + ((i : Int) - (a : Int)) * d.2 := by
    ring
  rw [e1, e2]; exact this

/-- A run of four that passes through a cell is a line of four through it. -/
theorem line_of_run_through {board : Grid} {p row col r c : Int} {d : Int × Int}
    (hrun : ∀ i : Nat, i < 4 → cellAt board (r + (i : Int) * d.1) (c + (i : Int) * d.2) = .ok p)
    {j : Nat} (hj : j < 4) (hr : r + (j : Int) * d.1 = row) (hc : c + (j : Int) * d.2 = col) :
    Line board p row col d.1 d.2 j (3 - j) := by
  intro i hlo hhi
  have := hrun (i + (j : Int)).toNat (by omega)
  have e : (((i + (j : Int)).toNat : Nat) : Int) = i + (j : Int) :=
    Int.toNat_of_nonneg (by omega)
  rw [e] at this
  have e1 : row + i * d.1 = r + (i + (j : Int)) * d.1 := by rw [← hr]; ring
  have e2 : col + i * d.2 = c + (i + (j : Int)) * d.2 := by rw [← hc]; ring
  rw [e1, e2]; exact this

/-- Runs of four after a token of `p` is placed at `(row, col)`: a run of
another player was there before; a run of `p` was there before or passes
through the new token. -/
theorem hasFour_after_set {board next : Grid} {row col p : Int}
    (hcells : ∀ r c x : Int, cellAt next r c = .ok x ↔
      ((r = row ∧ c = col ∧ x = p) ∨ (¬ (r = row ∧ c = col) ∧ cellAt board r c = .ok x)))
    (q : Int) (h : HasFour next q) :
    HasFour board q ∨
      (q = p ∧ ∃ d ∈ orientations, ∃ a b : Nat, 4 ≤ a + b + 1 ∧ Line next p row col d.1 d.2 a b) := by
  obtain ⟨r, c, d, hd, hrun⟩ := h
  by_cases hthrough : ∃ j : Nat, j < 4 ∧ r + (j : Int) * d.1 = row ∧ c + (j : Int) * d.2 = col
  · right
    obtain ⟨j, hj, hr, hc⟩ := hthrough
    have hq : q = p := by
      rcases (hcells _ _ _).1 (hrun j hj) with ⟨_, _, h3⟩ | ⟨h1, _⟩
      · exact h3
      · exact absurd ⟨hr, hc⟩ h1
    subst hq
    exact ⟨rfl, d, hd, j, 3 - j, by omega, line_of_run_through hrun hj hr hc⟩
  · left
    refine ⟨r, c, d, hd, ?_⟩
    intro i hi
    rcases (hcells _ _ _).1 (hrun i hi) with ⟨h1, h2, _⟩ | ⟨_, h2⟩
    · exact absurd ⟨i, hi, h1, h2⟩ hthrough
    · exact h2

theorem cellAt_zeros {n m : Nat} {r c x : Int}
    (h : cellAt (List.replicate n (List.replicate m (0 : Int))) r c = .ok x) : x = 0 := by
  rw [cellAt_eq_ok] at h
  obtain ⟨_, _, ln, h1, h2⟩ := h
  have hln := List.eq_of_mem_replicate (List.getElem?_mem h1)
  rw [hln] at h2
  exact List.eq_of_mem_replicate (List.getElem?_mem h2)

theorem not_hasFour_zeros (n m : Nat) (p : Int) (hp : p ≠ 0) :
    ¬ HasFour (List.replicate n (List.replicate m (0 : Int))) p := by
  rintro ⟨r, c, d, _, hrun⟩
  exact hp (cellAt_zeros (hrun 0 (by omega)))

/-- A game with an all-zero board of positive dimensions, player 1 to move,
no winner and no draw satisfies the invariant. -/
theorem inv_fresh (g : Game) (hrows : 0 < g.Rows) (hcols : 0 < g.Cols)
    (hboard : g.Board = List.replicate g.Rows.toNat (List.replicate g.Cols.toNat (0 : Int)))
    (hcp : g.CurrentPlayer = 1) (hw : g.Winner = 0) : Inv g := by
  refine ⟨⟨?_, ?_⟩, hrows, hcols, Or.inl hcp, Or.inl hw, ?_, ?_⟩
  · rw [hboard, List.length_replicate]; omega
  · intro ln hln
    rw [hboard] at hln
    rw [List.eq_of_mem_replicate hln, List.length_replicate]; omega
  · rintro ⟨h, _⟩; exact h hw
  · intro p hp
    rw [hw, hboard]
    constructor
    · intro h; omega
    · intro h; exact absurd h (not_hasFour_zeros _ _ p (by omega))

theorem inv_createGame {player1 player2 : String} {rows cols : Int} {fresh : Game}
    (hrows : 0 < rows) (hcols : 0 < cols)
    (h : createGame player1 player2 rows cols = .ok fresh) : Inv fresh := by
  unfold createGame at h
  rw [makeBoard_ok rows cols (by omega) (by omega)] at h
  simp only [bind, Except.bind] at h
  cases h
  exact inv_fresh _ hrows hcols rfl rfl rfl

theorem inv_resetHandler {g next : Game} (hinv : Inv g) (h : resetHandler g = .ok next) :
    Inv next := by
  obtain ⟨_, hrows, hcols, _⟩ := hinv
  unfold resetHandler at h
  rw [makeBoard_ok g.Rows g.Cols (by omega) (by omega)] at h
  simp only [bind, Except.bind] at h
  cases h
  exact inv_fresh _ hrows hcols rfl rfl rfl

theorem inv_playHandler {g : Game} (hinv : Inv g) (col : Int) : Inv (playHandler g col).2 := by
  obtain ⟨hwf, hrows, hcols, hcp, hwin, hexcl, hfour⟩ := hinv
  rcases playHandler_cases hwf col with ⟨he, _⟩ | ⟨he, _⟩ | ⟨he, _⟩ |
    ⟨row, next, won, _, _, ht, _, hin, _, _, _, hnl, hnr, hnw, hcells, _, hwon, he⟩
  · rw [he]; exact ⟨hwf, hrows, hcols, hcp, hwin, hexcl, hfour⟩
  · rw [he]; exact ⟨hwf, hrows, hcols, hcp, hwin, hexcl, hfour⟩
  · rw [he]; exact ⟨hwf, hrows, hcols, hcp, hwin, hexcl, hfour⟩
  · rw [he]
    have hw0 : g.Winner = 0 := by by_contra hne; exact ht (Or.inl hne)
    have hd0 : g.IsDraw = false := by
      cases hd : g.IsDraw with
      | false => rfl
      | true => exact absurd (Or.inr hd) ht
    have hno : ∀ q : Int, q = 1 ∨ q = 2 → ¬ HasFour g.Board q := by
      intro q hq h
      have := (hfour q hq).2 h
      omega
    have hwidth := width_of_wellFormed hwf (by unfold InGrid at hin; omega)
    refine ⟨⟨?_, ?_⟩, ?_, ?_, ?_, ?_, ?_, ?_⟩
    · rw [moved_Board, moved_Rows, hnl]; exact hwf.1
    · intro ln hln
      rw [moved_Board] at hln
      rw [moved_Cols, hnr ln hln, hnw]; exact hwidth
    · rw [moved_Rows]; exact hrows
    · rw [moved_Cols]; exact hcols
    · rw [moved_CurrentPlayer]; clear hwon hcells hfour hno; split_ifs <;> omega
    · rw [moved_Winner]; clear hwon hcells hfour hno; split_ifs <;> omega
    · rw [moved_Winner, moved_IsDraw]
      rintro ⟨h1, h2⟩
      cases won with
      | true => simp [hd0] at h2
      | false => simp [hw0] at h1
    · intro q hq
      rw [moved_Winner, moved_Board]
      constructor
      · intro hqw
        cases hw : won with
        | true =>
          rw [hw] at hqw
          simp only [if_true] at hqw
          obtain ⟨d, hd, a, b, hlen, hline⟩ := hwon.1 hw
          rw [← hqw]
          exact hasFour_of_line hd hlen hline
        | false =>
          rw [hw] at hqw
          simp only [Bool.false_eq_true, if_false] at hqw
          omega
      · intro hq4
        rcases hasFour_after_set hcells q hq4 with hold | ⟨hqp, hline⟩
        · exact absurd hold (hno q hq)
        · have hw : won = true := hwon.2 hline
          rw [hw, hqp]; rfl

theorem inv_serve {g : Game} (hinv : Inv g) (req : Request) : Inv (serve g req) := by
  cases req with
  | play col => exact inv_playHandler hinv col
  | reset =>
    unfold serve
    cases h : resetHandler g with
    | error f => exact hinv
    | ok next => exact inv_resetHandler hinv h

theorem inv_serveAll (reqs : List Request) : ∀ {g : Game}, Inv g → Inv (serveAll g reqs) := by
  induction reqs with
  | nil => intro g h; exact h
  | cons req rest ih =>
    intro g h
    exact ih (inv_serve h req)

/-- Every reachable game satisfies the invariant. -/
theorem inv_of_reachable {g : Game} (h : Reachable g) : Inv g := by
  obtain ⟨p1, p2, rows, cols, fresh, reqs, hrows, hcols, hcreate, hrun⟩ := h
  rw [← hrun]
  exact inv_serveAll reqs (inv_createGame hrows hcols hcreate)

theorem fourFrom_iff (board : Grid) (p r c dRow dCol : Int) :
    fourFrom board p r c dRow dCol = true ↔
      ∀ i : Nat, i < 4 → cellAt board (r + (i : Int) * dRow) (c + (i : Int) * dCol) = .ok p := by
  unfold fourFrom
  simp only [List.all_eq_true, List.mem_range, decide_eq_true_eq]

/-- On a rectangular board the full-board scan finds a run of four of `p`
exactly when one exists. -/
theorem scanFour_iff {board : Grid} (hrect : Rectangular board) (p : Int) :
    scanFour board p = true ↔ HasFour board p := by
  unfold scanFour HasFour
  simp only [List.any_eq_true, List.mem_range, fourFrom_iff]
  constructor
  · rintro ⟨r, _, c, _, d, hd, hrun⟩
    exact ⟨r, c, d, hd, hrun⟩
  · rintro ⟨r, c, d, hd, hrun⟩
    have h0 := hrun 0 (by omega)
    simp only [Nat.cast_zero, zero_mul, add_zero] at h0
    obtain ⟨h1, h2, h3, h4⟩ := inGrid_of_cellAt hrect h0
    refine ⟨r.toNat, by omega, c.toNat, by omega, d, hd, ?_⟩
    rw [Int.toNat_of_nonneg h1, Int.toNat_of_nonneg h3]
    exact hrun

theorem createGame_fresh67 : createGame "ann" "bob" 6 7 = .ok fresh67 := by decide

theorem serveAll_columnThree : serveAll fresh67 columnThree = won67 := by decide

theorem reachable_won67 : Reachable won67 :=
  ⟨"ann", "bob", 6, 7, fresh67, columnThree, by decide, by decide, createGame_fresh67,
    serveAll_columnThree⟩

theorem reachable_lastCell17 : Reachable lastCell17 :=
  ⟨"ann", "bob", 1, 7, fresh17, sixMoves, by decide, by decide, by decide, by decide⟩

theorem reachable_fresh11 : Reachable fresh11 :=
  ⟨"ann", "bob", 1, 1, fresh11, [], by decide, by decide, by decide, rfl⟩

/-! ## Faults of indexing -/

theorem index_error {α : Type} {s : List α} {i : Int} {f : Fault}
    (h : index s i = .error f) : f = .indexOutOfRange := by
  unfold index at h
  split at h
  · cases h; rfl
  · split at h
    · cases h
    · cases h; rfl

theorem cellAt_error {board : Grid} {r c : Int} {f : Fault}
    (h : cellAt board r c = .error f) : f = .indexOutOfRange := by
  unfold cellAt at h
  cases hi : index board r with
  | error e =>
    rw [hi] at h
    simp only [bind, Except.bind] at h
    cases h
    exact index_error hi
  | ok ln =>
    rw [hi] at h
    simp only [bind, Except.bind] at h
    exact index_error h

/-- Two cell reads that return the same values whenever they return are
equal, a failed read being always an index out of range. -/
theorem cellAt_ext {b1 b2 : Grid} {r1 c1 r2 c2 : Int}
    (h : ∀ x : Int, cellAt b1 r1 c1 = .ok x ↔ cellAt b2 r2 c2 = .ok x) :
    cellAt b1 r1 c1 = cellAt b2 r2 c2 := by
  cases h1 : cellAt b1 r1 c1 with
  | ok x => exact ((h x).1 h1).symm
  | error f =>
    cases h2 : cellAt b2 r2 c2 with
    | ok y =>
      have := (h y).2 h2
      rw [h1] at this; cases this
    | error e => rw [cellAt_error h1, cellAt_error h2]

/-! ## Boards that agree away from a cell -/

/-- On two rectangular boards whose cells along a non-zero direction, from
the first step on, hold `player` at the same places, `countInDirection`
returns the same count. -/
theorem countInDirection_congr {b1 b2 : Grid} (h1 : Rectangular b1) (h2 : Rectangular b2)
    (row col player dRow dCol : Int) (hd : dRow ≠ 0 ∨ dCol ≠ 0)
    (hsame : ∀ i : Nat, 1 ≤ i →
      (cellAt b1 (row + i * dRow) (col + i * dCol) = .ok player ↔
        cellAt b2 (row + i * dRow) (col + i * dCol) = .ok player)) :
    countInDirection b1 row col player dRow dCol =
      countInDirection b2 row col player dRow dCol := by
  obtain ⟨k1, e1, run1, end1⟩ := countInDirection_spec h1 row col player dRow dCol hd
  obtain ⟨k2, e2, run2, end2⟩ := countInDirection_spec h2 row col player dRow dCol hd
  have hk : k1 = k2 := by
    rcases lt_trichotomy k1 k2 with hlt | heq | hgt
    · exfalso
      apply end1
      have := (hsame (k1 + 1) (by omega)).2 (run2 (k1 + 1) (by omega) (by omega))
      push_cast at this
      exact this
    · exact heq
    · exfalso
      apply end2
      have := (hsame (k2 + 1) (by omega)).1 (run1 (k2 + 1) (by omega) (by omega))
      push_cast at this
      exact this
  rw [e1, e2, hk]

theorem checkDirection_congr {b1 b2 : Grid} (h1 : Rectangular b1) (h2 : Rectangular b2)
    (row col player dRow dCol : Int) (hd : dRow ≠ 0 ∨ dCol ≠ 0)
    (hfwd : ∀ i : Nat, 1 ≤ i →
      (cellAt b1 (row + i * dRow) (col + i * dCol) = .ok player ↔
        cellAt b2 (row + i * dRow) (col + i * dCol) = .ok player))
    (hbwd : ∀ i : Nat, 1 ≤ i →
      (cellAt b1 (row + i * -dRow) (col + i * -dCol) = .ok player ↔
        cellAt b2 (row + i * -dRow) (col + i * -dCol) = .ok player)) :
    checkDirection b1 row col player dRow dCol = checkDirection b2 row col player dRow dCol := by
  unfold checkDirection
  rw [countInDirection_congr h1 h2 row col player dRow dCol hd hfwd,
    countInDirection_congr h1 h2 row col player (-dRow) (-dCol) (by omega) hbwd]

/-! ## Drops on a well-formed game that is not over -/

/-- A move attempt on a column in range that holds a zero cell, on a
well-formed game that is not terminal, is accepted: the accepted case of
`playHandler_cases`. -/
theorem playHandler_drop {g : Game} (hwf : g.WellFormed) (hnt : ¬ g.Terminal) (col : Int)
    (hcol : 0 ≤ col ∧ col < g.Cols) (hfree : ∃ r : Int, cellAt g.Board r col = .ok 0) :
    ∃ (row : Int) (next : Grid) (won : Bool),
      findRow g.Board col = .ok row ∧ InGrid g.Board row col ∧
      cellAt g.Board row col = .ok 0 ∧ (∀ i : Int, row < i → cellAt g.Board i col ≠ .ok 0) ∧
      setCell g.Board row col g.CurrentPlayer = .ok next ∧
      next.length = g.Board.length ∧ Rectangular next ∧ width next = width g.Board ∧
      (∀ r c x : Int, cellAt next r c = .ok x ↔
        ((r = row ∧ c = col ∧ x = g.CurrentPlayer) ∨
          (¬ (r = row ∧ c = col) ∧ cellAt g.Board r c = .ok x))) ∧
      checkWin next row col g.CurrentPlayer = .ok won ∧
      (won = true ↔ ∃ d ∈ orientations, ∃ a b : Nat, 4 ≤ a + b + 1 ∧
        Line next g.CurrentPlayer row col d.1 d.2 a b) ∧
      playHandler g col = (.Accepted, moved g next won) := by
  rcases playHandler_cases hwf col with ⟨_, hc⟩ | ⟨_, _, _, ht⟩ | ⟨_, _, _, _, _, hfull⟩ |
    ⟨row, next, won, _, _, _, h1, h2, h3, h4, h5, h6, h7, h8, h9, h10, h11, h12⟩
  · omega
  · exact absurd ht hnt
  · obtain ⟨r, hr⟩ := hfree
    exact absurd hr (hfull r)
  · exact ⟨row, next, won, h1, h2, h3, h4, h5, h6, h7, h8, h9, h10, h11, h12⟩

/-- A move attempt on a column in range without any zero cell, on a
well-formed game that is not terminal, is turned down as `ColumnFull`. -/
theorem playHandler_full {g : Game} (hwf : g.WellFormed) (hnt : ¬ g.Terminal) (col : Int)
    (hcol : 0 ≤ col ∧ col < g.Cols) (hfull : ∀ r : Int, cellAt g.Board r col ≠ .ok 0) :
    playHandler g col = (.Rejected .ColumnFull, g) := by
  rcases playHandler_cases hwf col with ⟨_, hc⟩ | ⟨_, _, _, ht⟩ | ⟨he, _⟩ |
    ⟨row, next, won, _, _, _, _, _, h3, _⟩
  · omega
  · exact absurd ht hnt
  · exact he
  · exact absurd h3 (hfull row)

/-- A move attempt on a column in range of a terminal game is turned down as
`GameAlreadyOver`. -/
theorem playHandler_over {g : Game} (ht : g.Terminal) (col : Int)
    (hcol : 0 ≤ col ∧ col < g.Cols) :
    playHandler g col = (.Rejected .GameAlreadyOver, g) := by
  have ht2 : g.Winner ≠ 0 ∨ g.IsDraw = true := ht
  unfold playHandler
  rw [if_neg (by omega), if_pos ht2]

theorem mem_of_cellAt {board : Grid} {r c x : Int} (h : cellAt board r c = .ok x) :
    ∃ ln ∈ board, x ∈ ln := by
  rw [cellAt_eq_ok] at h
  obtain ⟨_, _, ln, h1, h2⟩ := h
  exact ⟨ln, List.getElem?_mem h1, List.getElem?_mem h2⟩

theorem cellAt_of_mem {board : Grid} {ln : List Int} {x : Int} (hln : ln ∈ board)
    (hx : x ∈ ln) : ∃ r c : Int, cellAt board r c = .ok x := by
  obtain ⟨i, hi, e1⟩ := List.getElem_of_mem hln
  obtain ⟨j, hj, e2⟩ := List.getElem_of_mem hx
  refine ⟨(i : Int), (j : Int), (cellAt_eq_ok _ _ _ _).2 ⟨by omega, by omega, ln, ?_, ?_⟩⟩
  · rw [Int.toNat_ofNat, List.getElem?_eq_getElem hi, e1]
  · rw [Int.toNat_ofNat, List.getElem?_eq_getElem hj, e2]

/-- A board with a zero cell is not a draw for `checkDraw`. -/
theorem checkDraw_false_of_zero {board : Grid} {r c : Int} (h : cellAt board r c = .ok 0) :
    checkDraw board = false := by
  cases hd : checkDraw board with
  | false => rfl
  | true =>
    obtain ⟨ln, hln, hx⟩ := mem_of_cellAt h
    exact absurd rfl ((checkDraw_spec board).1 hd ln hln 0 hx)

/-- A board none of whose cells reads zero is a draw for `checkDraw`. -/
theorem checkDraw_true_of_full {board : Grid}
    (h : ∀ r c : Int, cellAt board r c ≠ .ok 0) : checkDraw board = true := by
  rw [checkDraw_spec]
  intro ln hln x hx hx0
  obtain ⟨r, c, hc⟩ := cellAt_of_mem hln hx
  rw [hx0] at hc
  exact h r c hc

/-! ## Boards described by a list of tokens -/

theorem tokenAt_mem {toks : List (Int × Int × Int)} {r c v : Int}
    (h : tokenAt toks r c = v) (hv : v ≠ 0) : (r, c, v) ∈ toks := by
  induction toks with
  | nil => exact absurd h.symm hv
  | cons t rest ih =>
    obtain ⟨tr, tc, tv⟩ := t
    rw [tokenAt] at h
    by_cases hpos : r = tr ∧ c = tc
    · rw [if_pos hpos] at h
      rw [hpos.1, hpos.2, ← h]
      exact List.mem_cons_self _ _
    · rw [if_neg hpos] at h
      exact List.mem_cons_of_mem _ (ih h)

theorem describes_zeros (n m : Nat) :
    Describes [] (List.replicate n (List.replicate m (0 : Int))) := by
  intro r c x h
  exact cellAt_zeros h

/-- Placing a token extends the description by that token. -/
theorem describes_set {toks : List (Int × Int × Int)} {board next : Grid} {row col p : Int}
    (hdesc : Describes toks board)
    (hcells : ∀ r c x : Int, cellAt next r c = .ok x ↔
      ((r = row ∧ c = col ∧ x = p) ∨ (¬ (r = row ∧ c = col) ∧ cellAt board r c = .ok x))) :
    Describes ((row, col, p) :: toks) next := by
  intro r c x h
  rw [tokenAt]
  rcases (hcells r c x).1 h with ⟨h1, h2, h3⟩ | ⟨hne, hold⟩
  · rw [if_pos ⟨h1, h2⟩]; exact h3
  · rw [if_neg hne]; exact hdesc r c x hold

/-- A cell inside a rectangular board holds what the description records. -/
theorem cellAt_of_describes {toks : List (Int × Int × Int)} {board : Grid}
    (hrect : Rectangular board) (hdesc : Describes toks board) {r c : Int}
    (hin : InGrid board r c) : cellAt board r c = .ok (tokenAt toks r c) := by
  obtain ⟨x, hx⟩ := cellAt_of_inGrid hrect hin
  rw [hx, hdesc r c x hx]

/-- A run of four of player `p` needs four tokens of `p`. -/
theorem ofPlayer_of_hasFour {toks : List (Int × Int × Int)} {board : Grid}
    (hdesc : Describes toks board) {p : Int} (hp : p ≠ 0) (h : HasFour board p) :
    4 ≤ ofPlayer toks p := by
  obtain ⟨r, c, d, hd, hrun⟩ := h
  have hmem : ∀ i : Nat, i < 4 →
      (r + (i : Int) * d.1, c + (i : Int) * d.2, p) ∈
        toks.filter fun t => decide (t.2.2 = p) := by
    intro i hi
    have := tokenAt_mem (hdesc _ _ _ (hrun i hi)).symm hp
    exact List.mem_filter.2 ⟨this, by simp⟩
  have hsub : [(r + ((0 : Nat) : Int) * d.1, c + ((0 : Nat) : Int) * d.2, p),
      (r + ((1 : Nat) : Int) * d.1, c + ((1 : Nat) : Int) * d.2, p),
      (r + ((2 : Nat) : Int) * d.1, c + ((2 : Nat) : Int) * d.2, p),
      (r + ((3 : Nat) : Int) * d.1, c + ((3 : Nat) : Int) * d.2, p)] ⊆
        toks.filter fun t => decide (t.2.2 = p) := by
    intro t ht
    simp only [List.mem_cons, List.mem_singleton, List.not_mem_nil, or_false] at ht
    rcases ht with rfl | rfl | rfl | rfl
    · exact hmem 0 (by omega)
    · exact hmem 1 (by omega)
    · exact hmem 2 (by omega)
    · exact hmem 3 (by omega)
  have hnodup : [(r + ((0 : Nat) : Int) * d.1, c + ((0 : Nat) : Int) * d.2, p),
      (r + ((1 : Nat) : Int) * d.1, c + ((1 : Nat) : Int) * d.2, p),
      (r + ((2 : Nat) : Int) * d.1, c + ((2 : Nat) : Int) * d.2, p),
      (r + ((3 : Nat) : Int) * d.1, c + ((3 : Nat) : Int) * d.2, p)].Nodup := by
    simp only [orientations, List.mem_cons, List.mem_singleton, List.not_mem_nil,
      or_false] at hd
    rcases hd with rfl | rfl | rfl | rfl <;>
      simp only [List.nodup_cons, List.mem_cons, List.mem_singleton, List.not_mem_nil,
        Prod.mk.injEq, List.nodup_nil, or_false, and_true, not_or, not_and] <;>
      refine ⟨⟨?_, ?_, ?_⟩, ⟨?_, ?_⟩, ?_, not_false⟩ <;> intros <;> omega
  have := List.Subperm.length_le (List.subperm_of_subset hnodup hsub)
  simpa [ofPlayer] using this

/-- A column with fewer tokens than the board has rows holds a zero cell. -/
theorem free_cell_of_inColumn {toks : List (Int × Int × Int)} {board : Grid}
    (hrect : Rectangular board) (hdesc : Describes toks board) (col : Int)
    (hcol : 0 ≤ col ∧ col < (width board : Int)) (hfew : inColumn toks col < board.length) :
    ∃ r : Int, cellAt board r col = .ok 0 := by
  by_contra hall
  have hall2 : ∀ r : Int, cellAt board r col ≠ .ok 0 := fun r h => hall ⟨r, h⟩
  have hsub : (List.range board.length).map (fun r : Nat => ((r : Int), col)) ⊆
      (toks.filter fun t => decide (t.2.1 = col)).map (fun t => (t.1, t.2.1)) := by
    intro q hq
    obtain ⟨r, hr, rfl⟩ := List.mem_map.1 hq
    have hr2 := List.mem_range.1 hr
    have hcell := cellAt_of_describes hrect hdesc (r := (r : Int)) (c := col)
      ⟨by omega, by omega, hcol.1, hcol.2⟩
    have hne : tokenAt toks (r : Int) col ≠ 0 := by
      intro h0
      rw [h0] at hcell
      exact hall2 _ hcell
    have hmem := tokenAt_mem (rfl : tokenAt toks (r : Int) col = _) hne
    exact List.mem_map.2 ⟨_, List.mem_filter.2 ⟨hmem, by simp⟩, rfl⟩
  have hnodup : ((List.range board.length).map (fun r : Nat => ((r : Int), col))).Nodup := by
    apply List.Nodup.map _ (List.nodup_range _)
    intro a b hab
    simp only [Prod.mk.injEq, and_true] at hab
    exact_mod_cast hab
  have := List.Subperm.length_le (List.subperm_of_subset hnodup hsub)
  simp only [List.length_map, List.length_range] at this
  unfold inColumn at hfew
  omega

/-! ## Moves of a game in progress -/

theorem ofPlayer_cons (t : Int × Int × Int) (toks : List (Int × Int × Int)) (p : Int) :
    ofPlayer (t :: toks) p = ofPlayer toks p + if t.2.2 = p then 1 else 0 := by
  unfold ofPlayer
  rw [List.filter_cons]
  by_cases h : t.2.2 = p <;> simp [h]

theorem inColumn_cons (t : Int × Int × Int) (toks : List (Int × Int × Int)) (col : Int) :
    inColumn (t :: toks) col = inColumn toks col + if t.2.1 = col then 1 else 0 := by
  unfold inColumn
  rw [List.filter_cons]
  by_cases h : t.2.1 = col <;> simp [h]

theorem ofPlayer_nil (p : Int) : ofPlayer [] p = 0 := rfl

theorem inColumn_nil (col : Int) : inColumn [] col = 0 := rfl

theorem notTerminal_of_inPlay {g : Game} {toks : List (Int × Int × Int)} {p n rows cols : Int}
    (h : InPlay g toks p n rows cols) : ¬ g.Terminal := by
  obtain ⟨_, _, _, hw, hd, _⟩ := h
  rintro (ht | ht)
  · exact ht hw
  · rw [hd] at ht; cases ht

/-- A drop into a column in range that holds fewer tokens than the board has
rows, in a game in progress: the move is accepted, the token lands on a free
cell that is on the floor or on top of a token, and the new board is
described by the old tokens and the new one. -/
theorem inPlay_drop {g : Game} {toks : List (Int × Int × Int)} {p n rows cols : Int}
    (h : InPlay g toks p n rows cols) {col : Int} (hcol : 0 ≤ col ∧ col < cols)
    (hfew : (inColumn toks col : Int) < rows) :
    ∃ (row : Int) (next : Grid) (won : Bool),
      0 ≤ row ∧ row < rows ∧ tokenAt toks row col = 0 ∧
      (row + 1 = rows ∨ tokenAt toks (row + 1) col ≠ 0) ∧
      Describes ((row, col, p) :: toks) next ∧ Rectangular next ∧
      (next.length : Int) = rows ∧ (width next : Int) = cols ∧
      (won = true ↔ ∃ d ∈ orientations, ∃ a b : Nat, 4 ≤ a + b + 1 ∧
        Line next p row col d.1 d.2 a b) ∧
      playHandler g col = (.Accepted, moved g next won) := by
  have hnt := notTerminal_of_inPlay h
  obtain ⟨hinv, hdesc, hcp, hw, hd, hn, hrows, hcols⟩ := h
  obtain ⟨hwf, hrpos, _, _⟩ := hinv
  have hrect := rectangular_of_wellFormed hwf
  have hlen : (g.Board.length : Int) = rows := by rw [← hrows]; exact hwf.1
  have hwidth : (width g.Board : Int) = cols := by
    rw [← hcols]; exact width_of_wellFormed hwf (by omega)
  obtain ⟨r0, hr0⟩ := free_cell_of_inColumn hrect hdesc col
    ⟨hcol.1, by omega⟩ (by omega)
  obtain ⟨row, next, won, _, hin, hzero, habove, _, hnl, hnr, hnw, hcells, _, hwon, he⟩ :=
    playHandler_drop hwf hnt col ⟨hcol.1, by omega⟩ ⟨r0, hr0⟩
  obtain ⟨i1, i2, i3, i4⟩ := hin
  refine ⟨row, next, won, i1, by omega, (hdesc _ _ _ hzero).symm, ?_, ?_, hnr, by omega,
    by omega, ?_, he⟩
  · by_cases hlast : row + 1 = rows
    · exact Or.inl hlast
    · right
      intro h0
      have hcell := cellAt_of_describes hrect hdesc (r := row + 1) (c := col)
        ⟨by omega, by omega, i3, i4⟩
      rw [h0] at hcell
      exact habove (row + 1) (by omega) hcell
  · rw [← hcp]; exact describes_set hdesc hcells
  · rw [← hcp]; exact hwon

/-- A drop in a game in progress by a player with fewer than three tokens,
while some column keeps a free cell: the move is accepted, nobody wins, it is
not a draw and the other player is to move. -/
theorem inPlay_step {g : Game} {toks : List (Int × Int × Int)} {p n rows cols : Int}
    (h : InPlay g toks p n rows cols) {col : Int} (hcol : 0 ≤ col ∧ col < cols)
    (hfew : (inColumn toks col : Int) < rows) (hmover : ofPlayer toks p < 3)
    (hroom : ∃ c0 : Int, 0 ≤ c0 ∧ c0 < cols ∧
      ((inColumn toks c0 : Int) + if col = c0 then 1 else 0) < rows) :
    ∃ (row : Int) (after : Game),
      playHandler g col = (.Accepted, after) ∧
      0 ≤ row ∧ row < rows ∧ tokenAt toks row col = 0 ∧
      (row + 1 = rows ∨ tokenAt toks (row + 1) col ≠ 0) ∧
      InPlay after ((row, col, p) :: toks) (3 - p) (n + 1) rows cols := by
  obtain ⟨row, next, won, hr0, hr1, hfree, hfloor, hdesc2, hnr, hnl, hnw, hwon, he⟩ :=
    inPlay_drop h hcol hfew
  obtain ⟨hinv, hdesc, hcp, hw, hd, hn, hrows, hcols⟩ := h
  have hp0 : p ≠ 0 := by
    obtain ⟨_, _, _, hcp12, _⟩ := hinv
    omega
  have hnowin : won = false := by
    cases hwv : won with
    | false => rfl
    | true =>
      exfalso
      obtain ⟨d, hd4, a, b, hlen, hline⟩ := hwon.1 hwv
      have h4 := ofPlayer_of_hasFour hdesc2 hp0 (hasFour_of_line hd4 hlen hline)
      rw [ofPlayer_cons] at h4
      simp only [if_true] at h4
      omega
  have hnodraw : checkDraw next = false := by
    obtain ⟨c0, hc0, hc1, hc2⟩ := hroom
    have hcount : inColumn ((row, col, p) :: toks) c0 < next.length := by
      rw [inColumn_cons]
      simp only []
      split_ifs at hc2 ⊢ <;> omega
    obtain ⟨r, hr⟩ := free_cell_of_inColumn hnr hdesc2 c0 ⟨hc0, by omega⟩ hcount
    exact checkDraw_false_of_zero hr
  have hinv2 := inv_playHandler hinv col
  rw [he] at hinv2
  subst hnowin
  refine ⟨row, moved g next false, he, hr0, hr1, hfree, hfloor, hinv2, ?_, ?_, ?_, ?_, ?_,
    ?_, ?_⟩
  · rw [moved_Board]; exact hdesc2
  · rw [moved_CurrentPlayer, hnodraw, hcp]; rfl
  · rw [moved_Winner]; exact hw
  · rw [moved_IsDraw, hnodraw]; exact hd
  · rw [moved_TurnCount, hn]
  · rw [moved_Rows]; exact hrows
  · rw [moved_Cols]; exact hcols

/-- The first six moves of the vertical-win scenario: player 1 drops three
times into column `k`, player 2 in between into columns `c1`, `c2`, `c3` other
than `k`.  All six moves are accepted; player 1 then owns the three lowest
cells of column `k`, player 2 one cell in each of its columns, and player 1 is
to move. -/
theorem six_moves (player1 player2 : String) (rows cols k c1 c2 c3 : Int)
    (hrows : 4 ≤ rows) (hk : 0 ≤ k ∧ k < cols)
    (h1 : 0 ≤ c1 ∧ c1 < cols ∧ c1 ≠ k) (h2 : 0 ≤ c2 ∧ c2 < cols ∧ c2 ≠ k)
    (h3 : 0 ≤ c3 ∧ c3 < cols ∧ c3 ≠ k) :
    ∃ (g0 g1 g2 g3 g4 g5 g6 : Game) (s1 s2 s3 : Int),
      createGame player1 player2 rows cols = .ok g0 ∧
      playHandler g0 k = (.Accepted, g1) ∧ playHandler g1 c1 = (.Accepted, g2) ∧
      playHandler g2 k = (.Accepted, g3) ∧ playHandler g3 c2 = (.Accepted, g4) ∧
      playHandler g4 k = (.Accepted, g5) ∧ playHandler g5 c3 = (.Accepted, g6) ∧
      InPlay g6 [(s3, c3, 2), (rows - 3, k, 1), (s2, c2, 2), (rows - 2, k, 1), (s1, c1, 2),
        (rows - 1, k, 1)] 1 6 rows cols := by
  obtain ⟨h1a, h1b, h1c⟩ := h1
  obtain ⟨h2a, h2b, h2c⟩ := h2
  obtain ⟨h3a, h3b, h3c⟩ := h3
  have hcreate : createGame player1 player2 rows cols = .ok
      { Board := List.replicate rows.toNat (List.replicate cols.toNat (0 : Int)),
        CurrentPlayer := 1, Winner := 0, IsDraw := false,
        Player1Name := player1, Player2Name := player2,
        Rows := rows, Cols := cols, TurnCount := 0 } := by
    unfold createGame
    rw [makeBoard_ok rows cols (by omega) (by omega)]
    rfl
  have p0 : InPlay _ [] 1 0 rows cols :=
    ⟨inv_createGame (by omega) (by omega) hcreate, describes_zeros _ _, rfl, rfl, rfl, rfl,
      rfl, rfl⟩
  -- first drop of player 1
  obtain ⟨r1, g1, e1, r1a, r1b, _, r1l, q1⟩ := inPlay_step p0 hk
    (by simp [inColumn]; omega) (by simp [ofPlayer])
    ⟨k, hk.1, hk.2, by simp [inColumn]; omega⟩
  have p1 : InPlay g1 [(r1, k, 1)] 2 1 rows cols := by simpa using q1
  have hr1 : r1 = rows - 1 := by
    simp [tokenAt] at r1l
    omega
  have hk1 : k ≠ c1 := Ne.symm h1c
  have hk2 : k ≠ c2 := Ne.symm h2c
  have hk3 : k ≠ c3 := Ne.symm h3c
  -- first drop of player 2
  obtain ⟨s1, g2, e2, s1a, s1b, _, _, q2⟩ := inPlay_step p1 ⟨h1a, h1b⟩
    (by simp [inColumn_cons, inColumn_nil, hk1]; omega)
    (by simp [ofPlayer_cons, ofPlayer_nil])
    ⟨k, hk.1, hk.2, by simp [inColumn_cons, inColumn_nil, h1c]; omega⟩
  have p2 : InPlay g2 [(s1, c1, 2), (r1, k, 1)] 1 2 rows cols := by simpa using q2
  -- second drop of player 1
  obtain ⟨r2, g3, e3, r2a, r2b, r2f, r2l, q3⟩ := inPlay_step p2 hk
    (by simp [inColumn_cons, inColumn_nil, h1c]; omega)
    (by simp [ofPlayer_cons, ofPlayer_nil])
    ⟨k, hk.1, hk.2, by simp [inColumn_cons, inColumn_nil, h1c]; omega⟩
  have p3 : InPlay g3 [(r2, k, 1), (s1, c1, 2), (r1, k, 1)] 2 3 rows cols := by simpa using q3
  have hr2 : r2 = rows - 2 := by
    simp [tokenAt, hk1] at r2f r2l
    omega
  -- second drop of player 2
  obtain ⟨s2, g4, e4, s2a, s2b, _, _, q4⟩ := inPlay_step p3 ⟨h2a, h2b⟩
    (by simp [inColumn_cons, inColumn_nil, hk2]; split_ifs <;> omega)
    (by simp [ofPlayer_cons, ofPlayer_nil])
    ⟨k, hk.1, hk.2, by simp [inColumn_cons, inColumn_nil, h1c, h2c]; omega⟩
  have p4 : InPlay g4 [(s2, c2, 2), (r2, k, 1), (s1, c1, 2), (r1, k, 1)] 1 4 rows cols := by
    simpa using q4
  -- third drop of player 1
  obtain ⟨r3, g5, e5, r3a, r3b, r3f, r3l, q5⟩ := inPlay_step p4 hk
    (by simp [inColumn_cons, inColumn_nil, h1c, h2c]; omega)
    (by simp [ofPlayer_cons, ofPlayer_nil])
    ⟨k, hk.1, hk.2, by simp [inColumn_cons, inColumn_nil, h1c, h2c]; omega⟩
  have p5 : InPlay g5 [(r3, k, 1), (s2, c2, 2), (r2, k, 1), (s1, c1, 2), (r1, k, 1)]
      2 5 rows cols := by
    simpa using q5
  have hr3 : r3 = rows - 3 := by
    simp [tokenAt, hk1, hk2] at r3f r3l
    omega
  -- third drop of player 2
  obtain ⟨s3, g6, e6, s3a, s3b, _, _, q6⟩ := inPlay_step p5 ⟨h3a, h3b⟩
    (by simp [inColumn_cons, inColumn_nil, hk3]; split_ifs <;> omega)
    (by simp [ofPlayer_cons, ofPlayer_nil])
    ⟨k, hk.1, hk.2, by simp [inColumn_cons, inColumn_nil, h1c, h2c, h3c]; omega⟩
  have p6 : InPlay g6
      [(s3, c3, 2), (r3, k, 1), (s2, c2, 2), (r2, k, 1), (s1, c1, 2), (r1, k, 1)]
      1 6 rows cols := by
    simpa using q6
  subst hr1
  subst hr2
  subst hr3
  exact ⟨_, g1, g2, g3, g4, g5, g6, s1, s2, s3, hcreate, e1, e2, e3, e4, e5, e6, p6⟩

/-! ## Counting cells -/

theorem sum_map_set {α : Type} (f : α → Nat) :
    ∀ (l : List α) (i : Nat) (h : i < l.length) (a : α),
      ((l.set i a).map f).sum + f (l.get ⟨i, h⟩) = (l.map f).sum + f a := by
  intro l
  induction l with
  | nil => intro i h; simp at h
  | cons x rest ih =>
    intro i h a
    cases i with
    | zero => simp only [List.set_cons_zero, List.map_cons, List.sum_cons, List.get]; omega
    | succ j =>
      have hj : j < rest.length := by simpa using h
      have := ih j hj a
      simp only [List.set_cons_succ, List.map_cons, List.sum_cons, List.get]
      omega

theorem countP_set_add (f : Int → Bool) (l : List Int) (j : Nat) (h : j < l.length) (v : Int) :
    (l.set j v).countP f + (if f (l.get ⟨j, h⟩) then 1 else 0) =
      l.countP f + (if f v then 1 else 0) := by
  have h1 := List.countP_set f l j v h
  have h2 := List.boole_getElem_le_countP f l j h
  simp only [List.get_eq_getElem]
  omega

/-- Writing `v` over a cell that held `a` moves the count of the cells
satisfying `f` by the difference between `v` and `a`. -/
theorem countCells_setCell (f : Int → Bool) {board next : Grid} {row col v a : Int}
    (hset : setCell board row col v = .ok next) (hcell : cellAt board row col = .ok a) :
    countCells f next + (if f a then 1 else 0) = countCells f board + (if f v then 1 else 0) := by
  rw [cellAt_eq_ok] at hcell
  obtain ⟨hr0, hc0, ln, hln, ha⟩ := hcell
  obtain ⟨hi, eln⟩ := List.getElem?_eq_some_iff.1 hln
  obtain ⟨hj, ea⟩ := List.getElem?_eq_some_iff.1 ha
  have hidx : index board row = .ok ln := (index_eq_ok _ _ _).2 ⟨hr0, hln⟩
  unfold setCell at hset
  rw [hidx] at hset
  simp only [bind, Except.bind, assign] at hset
  rw [if_neg (by omega), if_pos hj] at hset
  simp only [] at hset
  rw [if_neg (by omega), if_pos hi] at hset
  cases hset
  unfold countCells
  have h1 := sum_map_set (List.countP f) board row.toNat hi (ln.set col.toNat v)
  have h2 := countP_set_add f ln col.toNat hj v
  simp only [List.get_eq_getElem] at h1 h2
  rw [eln] at h1
  have e : f (ln[col.toNat]) = f a := congrArg f ea
  simp only [e] at h2
  omega

theorem countCells_zeros (f : Int → Bool) (hf : f 0 = false) (n m : Nat) :
    countCells f (List.replicate n (List.replicate m (0 : Int))) = 0 := by
  unfold countCells
  rw [List.map_replicate, List.sum_replicate, List.countP_replicate, hf]
  simp

theorem countCells_le (f : Int → Bool) (board : Grid) :
    countCells f board ≤ (board.map List.length).sum := by
  unfold countCells
  induction board with
  | nil => simp
  | cons ln rest ih =>
    have := List.countP_le_length f (l := ln)
    simp only [List.map_cons, List.sum_cons]
    omega

/-- When as many cells satisfy `f` as the board has cells, every cell does. -/
theorem all_of_countCells_eq (f : Int → Bool) (board : Grid)
    (h : countCells f board = (board.map List.length).sum) :
    ∀ ln ∈ board, ∀ x ∈ ln, f x = true := by
  unfold countCells at h
  induction board with
  | nil => intro ln hln; cases hln
  | cons a rest ih =>
    have h1 := List.countP_le_length f (l := a)
    have h2 := countCells_le f rest
    unfold countCells at h2
    simp only [List.map_cons, List.sum_cons] at h
    intro ln hln
    rcases List.mem_cons.1 hln with rfl | hmem
    · exact List.countP_eq_length.1 (by omega)
    · exact ih (by omega) ln hmem

theorem sum_lengths (cols : Int) (board : Grid)
    (hrows : ∀ ln ∈ board, (ln.length : Int) = cols) :
    (((board.map List.length).sum : Nat) : Int) = (board.length : Int) * cols := by
  induction board with
  | nil => simp
  | cons ln rest ih =>
    have h1 := hrows ln (List.mem_cons_self _ _)
    have h2 := ih (fun l hl => hrows l (List.mem_cons_of_mem _ hl))
    simp only [List.map_cons, List.sum_cons, List.length_cons]
    rw [Nat.cast_add, h2, h1]
    push_cast
    ring

theorem cells_of_wellFormed {g : Game} (hwf : g.WellFormed) :
    (((g.Board.map List.length).sum : Nat) : Int) = g.Rows * g.Cols := by
  rw [sum_lengths g.Cols g.Board hwf.2, hwf.1]

/-! ## The counting invariant of reachable games -/

theorem counted_fresh (g : Game) (hrows : 0 < g.Rows) (hcols : 0 < g.Cols)
    (hboard : g.Board = List.replicate g.Rows.toNat (List.replicate g.Cols.toNat (0 : Int)))
    (hcp : g.CurrentPlayer = 1) (hw : g.Winner = 0) (hd : g.IsDraw = false)
    (hn : g.TurnCount = 0) : Counted g := by
  have hnt : ¬ g.Terminal := by
    rintro (h | h)
    · exact h hw
    · rw [hd] at h; cases h
  have hocc : occupied g.Board = 0 := by
    rw [hboard]; exact countCells_zeros _ (by decide) _ _
  have h1 : holding 1 g.Board = 0 := by
    rw [hboard]; exact countCells_zeros _ (by decide) _ _
  have h2 : holding 2 g.Board = 0 := by
    rw [hboard]; exact countCells_zeros _ (by decide) _ _
  refine ⟨?_, ?_, ?_, ?_, ?_, ?_, ?_, ?_⟩
  · intro r r2 c v _ hv hv0
    rw [hboard] at hv
    exact absurd (cellAt_zeros hv) hv0
  · rw [hn, hocc]; rfl
  · intro r c v hv
    rw [hboard] at hv
    exact Or.inl (cellAt_zeros hv)
  · rw [hocc, h1, h2]
  · intro ht; exact absurd ht hnt
  · intro _; left; exact ⟨hcp, by rw [h1, h2]⟩
  · intro h; exact absurd hw h
  · intro _
    refine ⟨0, 0, ?_⟩
    rw [hboard, cellAt_eq_ok]
    refine ⟨le_refl _, le_refl _, List.replicate g.Cols.toNat 0, ?_, ?_⟩
    · rw [List.getElem?_replicate, if_pos (by simp; omega)]
    · rw [List.getElem?_replicate, if_pos (by simp; omega)]

theorem counted_createGame {player1 player2 : String} {rows cols : Int} {fresh : Game}
    (hrows : 0 < rows) (hcols : 0 < cols)
    (h : createGame player1 player2 rows cols = .ok fresh) : Counted fresh := by
  unfold createGame at h
  rw [makeBoard_ok rows cols (by omega) (by omega)] at h
  simp only [bind, Except.bind] at h
  cases h
  exact counted_fresh _ hrows hcols rfl rfl rfl rfl rfl

theorem counted_resetHandler {g next : Game} (hinv : Inv g) (h : resetHandler g = .ok next) :
    Counted next := by
  obtain ⟨_, hrows, hcols, _⟩ := hinv
  unfold resetHandler at h
  rw [makeBoard_ok g.Rows g.Cols (by omega) (by omega)] at h
  simp only [bind, Except.bind] at h
  cases h
  exact counted_fresh _ hrows hcols rfl rfl rfl rfl rfl

/-- Gravity survives a drop: the token lands on the lowest free cell of its
column. -/
theorem gravity_after_drop {board next : Grid} {row col p : Int} (hp : p ≠ 0)
    (hgrav : Gravity board)
    (habove : ∀ i : Int, row < i → cellAt board i col ≠ .ok 0)
    (hcells : ∀ r c x : Int, cellAt next r c = .ok x ↔
      ((r = row ∧ c = col ∧ x = p) ∨ (¬ (r = row ∧ c = col) ∧ cellAt board r c = .ok x))) :
    Gravity next := by
  intro r r2 c v hlt hv hv0 hz
  rcases (hcells r2 c 0).1 hz with ⟨_, _, h0⟩ | ⟨_, hold2⟩
  · exact hp h0.symm
  · rcases (hcells r c v).1 hv with ⟨e1, e2, _⟩ | ⟨_, hold⟩
    · subst e1; subst e2
      exact habove r2 hlt hold2
    · exact hgrav r r2 c v hlt hold hv0 hold2

theorem counted_playHandler {g : Game} (hinv : Inv g) (hc : Counted g) (col : Int) :
    Counted (playHandler g col).2 := by
  obtain ⟨hwf, _, _, hcp, _, _, _⟩ := hinv
  rcases playHandler_cases hwf col with ⟨he, _⟩ | ⟨he, _⟩ | ⟨he, _⟩ |
    ⟨row, next, won, _, _, ht, _, _, hzero, habove, hset, _, _, _, hcells, _, _, he⟩
  · rw [he]; exact hc
  · rw [he]; exact hc
  · rw [he]; exact hc
  · rw [he]
    obtain ⟨hgrav, hturn, hvals, hsum, _, hpar, _, _⟩ := hc
    have hpar2 := hpar ht
    have hw0 : g.Winner = 0 := by by_contra hne; exact ht (Or.inl hne)
    have hd0 : g.IsDraw = false := by
      cases hd : g.IsDraw with
      | false => rfl
      | true => exact absurd (Or.inr hd) ht
    have hp0 : g.CurrentPlayer ≠ 0 := by omega
    have cocc := countCells_setCell (fun x => decide (x ≠ 0)) hset hzero
    have c1 := countCells_setCell (fun x => decide (x = 1)) hset hzero
    have c2 := countCells_setCell (fun x => decide (x = 2)) hset hzero
    simp only [ne_eq, not_true_eq_false, decide_False, Bool.false_eq_true, if_false,
      add_zero, decide_eq_true_eq, zero_ne_one, OfNat.zero_ne_ofNat] at cocc c1 c2
    rw [if_pos hp0] at cocc
    have hocc2 : occupied next = occupied g.Board + 1 := cocc
    have hone2 : holding 1 next = holding 1 g.Board + if g.CurrentPlayer = 1 then 1 else 0 := c1
    have htwo2 : holding 2 next = holding 2 g.Board + if g.CurrentPlayer = 2 then 1 else 0 := c2
    have hterm : (moved g next won).Terminal ↔ (won = true ∨ checkDraw next = true) := by
      unfold Game.Terminal
      rw [moved_Winner, moved_IsDraw]
      cases won <;> cases checkDraw next <;> simp [hw0, hd0, hp0]
    refine ⟨?_, ?_, ?_, ?_, ?_, ?_, ?_, ?_⟩
    · rw [moved_Board]; exact gravity_after_drop hp0 hgrav habove hcells
    · rw [moved_Board, moved_TurnCount, hocc2, hturn]; push_cast; ring
    · rw [moved_Board]
      intro r c v hv
      rcases (hcells r c v).1 hv with ⟨_, _, e⟩ | ⟨_, hold⟩
      · omega
      · exact hvals r c v hold
    · rw [moved_Board, hocc2, hone2, htwo2, hsum]
      rcases hcp with e | e <;> simp [e] <;> omega
    · intro hterminal
      have hcur : (moved g next won).CurrentPlayer = g.CurrentPlayer := by
        rw [moved_CurrentPlayer]
        rcases (hterm.1 hterminal) with e | e
        · rw [e]; rfl
        · rw [e]; simp
      rw [hcur, moved_Board, hone2, htwo2]
      rcases hpar2 with ⟨e, hh⟩ | ⟨e, hh⟩ <;> simp [e] <;> omega
    · intro hnt2
      have hw : won = false := by
        cases hwv : won with
        | false => rfl
        | true => exact absurd (hterm.2 (Or.inl hwv)) hnt2
      have hdr : checkDraw next = false := by
        cases hdv : checkDraw next with
        | false => rfl
        | true => exact absurd (hterm.2 (Or.inr hdv)) hnt2
      have hcur : (moved g next won).CurrentPlayer = 3 - g.CurrentPlayer := by
        rw [moved_CurrentPlayer, hw, hdr]; simp
      rw [hcur, moved_Board, hone2, htwo2]
      rcases hpar2 with ⟨e, hh⟩ | ⟨e, hh⟩ <;> simp [e] <;> omega
    · rw [moved_Winner, moved_CurrentPlayer]
      cases won with
      | true => intro _; rfl
      | false => intro h; exact absurd hw0 (by simpa using h)
    · intro hnt2
      rw [moved_Board]
      have hdr : checkDraw next = false := by
        cases hdv : checkDraw next with
        | false => rfl
        | true => exact absurd (hterm.2 (Or.inr hdv)) hnt2
      by_contra hnone
      have : checkDraw next = true := checkDraw_true_of_full
        (fun r c hrc => hnone ⟨r, c, hrc⟩)
      rw [this] at hdr
      cases hdr

theorem counted_serve {g : Game} (hinv : Inv g) (hc : Counted g) (req : Request) :
    Counted (serve g req) := by
  cases req with
  | play col => exact counted_playHandler hinv hc col
  | reset =>
    unfold serve
    cases h : resetHandler g with
    | error f => exact hc
    | ok next => exact counted_resetHandler hinv h

theorem counted_serveAll (reqs : List Request) :
    ∀ {g : Game}, Inv g → Counted g → Counted (serveAll g reqs) := by
  induction reqs with
  | nil => intro g _ h; exact h
  | cons req rest ih =>
    intro g hinv hc
    exact ih (inv_serve hinv req) (counted_serve hinv hc req)

/-- Every reachable game satisfies the counting invariant. -/
theorem counted_of_reachable {g : Game} (h : Reachable g) : Counted g := by
  obtain ⟨p1, p2, rows, cols, fresh, reqs, hrows, hcols, hcreate, hrun⟩ := h
  rw [← hrun]
  exact counted_serveAll reqs (inv_createGame hrows hcols hcreate)
    (counted_createGame hrows hcols hcreate)

/-! ## Claims -/

/-- C1: on a well-formed game (the board is a `Rows` x `Cols` grid) and for
every integer column, the move step of `playHandler` accepts the move if and
only if `0 <= col < Cols`, `Winner = 0`, `IsDraw = false` and column `col`
holds at least one zero cell; whenever the move is not accepted the game it
leaves is equal to the input game in every field. -/
theorem playHandler_accepts_iff (g : Game) (hwf : g.WellFormed) (col : Int) :
    ((playHandler g col).1 = .Accepted ↔
      (0 ≤ col ∧ col < g.Cols ∧ g.Winner = 0 ∧ g.IsDraw = false ∧
        ∃ r : Int, cellAt g.Board r col = .ok 0)) ∧
    ((playHandler g col).1 ≠ .Accepted → (playHandler g col).2 = g) := by
  rcases playHandler_cases hwf col with ⟨he, hc⟩ | ⟨he, hc0, hc1, ht⟩ |
    ⟨he, hc0, hc1, ht, _, hfull⟩ | ⟨row, next, won, hc0, hc1, ht, _, _, hzero, _, _, _, _, _, _, _, _, he⟩
  · rw [he]
    refine ⟨⟨fun h => (by cases h), ?_⟩, fun _ => rfl⟩
    rintro ⟨h0, h1, _⟩
    omega
  · rw [he]
    refine ⟨⟨fun h => (by cases h), ?_⟩, fun _ => rfl⟩
    rintro ⟨_, _, hw, hd, _⟩
    rcases ht with ht | ht
    · exact absurd hw ht
    · rw [hd] at ht; cases ht
  · rw [he]
    refine ⟨⟨fun h => (by cases h), ?_⟩, fun _ => rfl⟩
    rintro ⟨_, _, _, _, r, hr⟩
    exact absurd hr (hfull r)
  · rw [he]
    refine ⟨⟨fun _ => ⟨hc0, hc1, ?_, ?_, row, hzero⟩, fun _ => rfl⟩, fun h => absurd rfl h⟩
    · by_contra hne; exact ht (Or.inl hne)
    · cases hd : g.IsDraw with
      | false => rfl
      | true => exact absurd (Or.inr hd) ht

theorem playHandler_accepts_iff_witness :
    sample.WellFormed ∧
    (((playHandler sample 0).1 = .Accepted ↔
      (0 ≤ (0 : Int) ∧ (0 : Int) < sample.Cols ∧ sample.Winner = 0 ∧ sample.IsDraw = false ∧
        ∃ r : Int, cellAt sample.Board r 0 = .ok 0)) ∧
    ((playHandler sample 0).1 ≠ .Accepted → (playHandler sample 0).2 = sample)) :=
  ⟨by decide, playHandler_accepts_iff sample (by decide) 0⟩

/-- C2: every accepted move of a player `p` in `{1, 2}`, on a game whose
`TurnCount` is a 64-bit `int` below the largest one (`-2^63 <= TurnCount <
2^63 - 1`, as in every game the program reaches), increases `TurnCount` by
exactly one, which is also what Go's wrapping increment gives there, and has
exactly one of three outcomes: win (`Winner` becomes `p`, `IsDraw` and
`CurrentPlayer` unchanged), draw (`IsDraw` becomes true, `Winner` stays 0,
`CurrentPlayer` unchanged) or switch (`CurrentPlayer` becomes `3 - p`,
`Winner` stays 0, `IsDraw` stays false). -/
theorem accepted_move_outcome (g : Game) (col : Int)
    (hacc : (playHandler g col).1 = .Accepted)
    (hp : g.CurrentPlayer = 1 ∨ g.CurrentPlayer = 2)
    (hlo : -9223372036854775808 ≤ g.TurnCount) (hhi : g.TurnCount < 9223372036854775807) :
    (playHandler g col).2.TurnCount = g.TurnCount + 1 ∧
    (playHandler g col).2.TurnCount = wrap64 (g.TurnCount + 1) ∧
    (((playHandler g col).2.Winner = g.CurrentPlayer ∧
        (playHandler g col).2.IsDraw = g.IsDraw ∧
        (playHandler g col).2.CurrentPlayer = g.CurrentPlayer) ∨
      ((playHandler g col).2.IsDraw = true ∧ (playHandler g col).2.Winner = 0 ∧
        (playHandler g col).2.CurrentPlayer = g.CurrentPlayer) ∨
      ((playHandler g col).2.CurrentPlayer = 3 - g.CurrentPlayer ∧
        (playHandler g col).2.Winner = 0 ∧ (playHandler g col).2.IsDraw = false)) ∧
    ¬ (((playHandler g col).2.Winner = g.CurrentPlayer ∧
        (playHandler g col).2.IsDraw = g.IsDraw ∧
        (playHandler g col).2.CurrentPlayer = g.CurrentPlayer) ∧
      ((playHandler g col).2.IsDraw = true ∧ (playHandler g col).2.Winner = 0 ∧
        (playHandler g col).2.CurrentPlayer = g.CurrentPlayer)) ∧
    ¬ (((playHandler g col).2.Winner = g.CurrentPlayer ∧
        (playHandler g col).2.IsDraw = g.IsDraw ∧
        (playHandler g col).2.CurrentPlayer = g.CurrentPlayer) ∧
      ((playHandler g col).2.CurrentPlayer = 3 - g.CurrentPlayer ∧
        (playHandler g col).2.Winner = 0 ∧ (playHandler g col).2.IsDraw = false)) ∧
    ¬ (((playHandler g col).2.IsDraw = true ∧ (playHandler g col).2.Winner = 0 ∧
        (playHandler g col).2.CurrentPlayer = g.CurrentPlayer) ∧
      ((playHandler g col).2.CurrentPlayer = 3 - g.CurrentPlayer ∧
        (playHandler g col).2.Winner = 0 ∧ (playHandler g col).2.IsDraw = false)) := by
  obtain ⟨_, _, hw, hd, row, next, won, _, _, _, _, he⟩ := playHandler_accepted hacc
  rw [he]
  refine ⟨?_, ?_, ?_, ?_, ?_, ?_⟩
  · rw [moved_TurnCount]
  · rw [moved_TurnCount]
    unfold wrap64
    omega
  · cases won with
    | true => left; simp [moved, hd]
    | false =>
      by_cases hdr : checkDraw next = true
      · right; left; simp [moved, hdr, hw]
      · right; right; simp [moved, hdr, hw, hd]
  · rintro ⟨⟨h1, _, _⟩, ⟨_, h2, _⟩⟩
    omega
  · rintro ⟨⟨h1, _, _⟩, ⟨_, h2, _⟩⟩
    omega
  · rintro ⟨⟨_, _, h1⟩, ⟨h2, _, _⟩⟩
    omega

theorem accepted_move_outcome_witness :
    (playHandler sample 1).1 = .Accepted ∧ (sample.CurrentPlayer = 1 ∨ sample.CurrentPlayer = 2) ∧
    (-9223372036854775808 ≤ sample.TurnCount ∧ sample.TurnCount < 9223372036854775807) ∧
    (playHandler sample 1).2.TurnCount = sample.TurnCount + 1 ∧
    (playHandler sample 1).2.TurnCount = 2 ∧
    (playHandler sample 1).2.IsDraw = false ∧
    (playHandler sample 1).2.CurrentPlayer = 1 ∧
    wrap64 (9223372036854775807 + 1) = -9223372036854775808 :=
  ⟨by decide, by decide, by decide,
    (accepted_move_outcome sample 1 (by decide) (by decide) (by decide) (by decide)).1,
    by decide, by decide, by decide, by decide⟩

/-- C3: on a rectangular board, for a cell `(row, col)` inside the grid that
holds `player`, `checkWin` returns normally and answers `true` if and only if
some line of at least four consecutive cells inside the grid, all holding
`player`, contains `(row, col)` and runs along one of the four orientations
(horizontal, vertical, either diagonal); in particular, when in every
orientation the maximal run through `(row, col)` has exactly three cells, the
answer is `false`.  (The condition `player != 0` of the claim is not needed.) -/
theorem checkWin_iff_line (board : Grid) (hrect : Rectangular board) (row col player : Int)
    (hcell : cellAt board row col = .ok player) :
    ∃ won : Bool, checkWin board row col player = .ok won ∧
      (won = true ↔ ∃ d ∈ orientations, ∃ a b : Nat, 4 ≤ a + b + 1 ∧
        Line board player row col d.1 d.2 a b) ∧
      ((∀ d ∈ orientations, ∃ a b : Nat, a + b + 1 = 3 ∧
          Line board player row col d.1 d.2 a b ∧
          cellAt board (row - ((a : Int) + 1) * d.1) (col - ((a : Int) + 1) * d.2)
            ≠ .ok player ∧
          cellAt board (row + ((b : Int) + 1) * d.1) (col + ((b : Int) + 1) * d.2)
            ≠ .ok player) →
        won = false) := by
  obtain ⟨won, hwin, hiff⟩ := checkWin_spec hrect row col player hcell
  refine ⟨won, hwin, hiff, ?_⟩
  intro hmax
  cases hw : won with
  | false => rfl
  | true =>
    exfalso
    obtain ⟨d, hd, a2, b2, hlen, hline⟩ := hiff.1 hw
    obtain ⟨a, b, hab, _, hlo, hhi⟩ := hmax d hd
    have ha : a2 ≤ a := by
      by_contra hlt
      apply hlo
      have := hline (-((a : Int) + 1)) (by omega) (by omega)
      have e1 : row - ((a : Int) + 1) * d.1 = row + (-((a : Int) + 1)) * d.1 := by ring
      have e2 : col - ((a : Int) + 1) * d.2 = col + (-((a : Int) + 1)) * d.2 := by ring
      rw [e1, e2]; exact this
    have hb : b2 ≤ b := by
      by_contra hlt
      apply hhi
      exact hline ((b : Int) + 1) (by omega) (by omega)
    omega

theorem checkWin_iff_line_witness :
    Rectangular bottomRow ∧ cellAt bottomRow 3 3 = .ok 1 ∧
    checkWin bottomRow 3 3 1 = .ok true ∧
    checkWin threeRow 3 2 1 = .ok false ∧
    ∃ won : Bool, checkWin bottomRow 3 3 1 = .ok won ∧
      (won = true ↔ ∃ d ∈ orientations, ∃ a b : Nat, 4 ≤ a + b + 1 ∧
        Line bottomRow 1 3 3 d.1 d.2 a b) :=
  ⟨by decide, by decide, by decide, by decide,
    (checkWin_iff_line bottomRow (by decide) 3 3 1 (by decide)).imp
      (fun _ h => ⟨h.1, h.2.1⟩)⟩

/-- C4: in every game reachable from a freshly created game with positive
dimensions, and for each player `p` in `{1, 2}`, `Winner = p` if and only if
the board holds four consecutive cells of `p` in some row, column or
diagonal, which is what the full-board scan `scanFour` reports; hence with
`Winner = 0` the scan finds no run of four for either player. -/
theorem winner_iff_scanFour (g : Game) (hreach : Reachable g) (p : Int) (hp : p = 1 ∨ p = 2) :
    (g.Winner = p ↔ HasFour g.Board p) ∧
    (g.Winner = p ↔ scanFour g.Board p = true) ∧
    (g.Winner = 0 → scanFour g.Board 1 = false ∧ scanFour g.Board 2 = false) := by
  obtain ⟨hwf, _, _, _, _, _, hfour⟩ := inv_of_reachable hreach
  have hrect := rectangular_of_wellFormed hwf
  refine ⟨hfour p hp, ?_, ?_⟩
  · rw [scanFour_iff hrect]; exact hfour p hp
  · intro hw
    constructor
    · cases h : scanFour g.Board 1 with
      | false => rfl
      | true =>
        have := (hfour 1 (Or.inl rfl)).2 ((scanFour_iff hrect 1).1 h)
        omega
    · cases h : scanFour g.Board 2 with
      | false => rfl
      | true =>
        have := (hfour 2 (Or.inr rfl)).2 ((scanFour_iff hrect 2).1 h)
        omega

theorem winner_iff_scanFour_witness :
    Reachable won67 ∧ ((1 : Int) = 1 ∨ (1 : Int) = 2) ∧ won67.Winner = 1 ∧
    scanFour won67.Board 1 = true ∧ (won67.Winner = 1 ↔ HasFour won67.Board 1) :=
  ⟨reachable_won67, Or.inl rfl, by decide, by decide,
    (winner_iff_scanFour won67 reachable_won67 1 (Or.inl rfl)).1⟩

/-- C5: on a rectangular board and for a column inside it, `findRow` returns
normally; the result is `-1` exactly when no cell of the column is zero, and
otherwise it is the largest row index whose cell in the column is zero, every
row below it being occupied; when the result is `-1`, `playHandler` turns the
move down and leaves the game unchanged. -/
theorem findRow_lowest_empty (board : Grid) (hrect : Rectangular board) (col : Int)
    (hcol : 0 ≤ col ∧ col < (width board : Int)) :
    ∃ r : Int, findRow board col = .ok r ∧
      (r = -1 ↔ ∀ i : Int, cellAt board i col ≠ .ok 0) ∧
      (r ≠ -1 →
        0 ≤ r ∧ r < (board.length : Int) ∧ cellAt board r col = .ok 0 ∧
        (∀ i : Int, cellAt board i col = .ok 0 → i ≤ r) ∧
        ∀ i : Int, r < i → i < (board.length : Int) →
          ∃ v : Int, cellAt board i col = .ok v ∧ v ≠ 0) ∧
      (r = -1 → ∀ g : Game, g.Board = board →
        (∃ reason, (playHandler g col).1 = .Rejected reason) ∧ (playHandler g col).2 = g) := by
  obtain ⟨r, hfr, hcase⟩ := findRow_spec hrect col hcol
  refine ⟨r, hfr, ?_, ?_, ?_⟩
  · rcases hcase with ⟨h1, h2⟩ | ⟨h1, _, h3, _⟩
    · exact ⟨fun _ => h2, fun _ => h1⟩
    · exact ⟨fun h => by omega, fun h => absurd h3 (h r)⟩
  · intro hne
    rcases hcase with ⟨h1, _⟩ | ⟨h1, h2, h3, h4⟩
    · exact absurd h1 hne
    · refine ⟨h1, h2, h3, ?_, ?_⟩
      · intro i hi
        by_contra hlt
        exact h4 i (by omega) hi
      · intro i hlt hlen
        obtain ⟨v, hv⟩ := cellAt_of_inGrid hrect (r := i) (c := col)
          ⟨by omega, hlen, hcol.1, hcol.2⟩
        refine ⟨v, hv, ?_⟩
        intro hv0
        rw [hv0] at hv
        exact h4 i hlt hv
  · intro hr g hg
    subst hr
    subst hg
    unfold playHandler
    by_cases h1 : col < 0 ∨ col ≥ g.Cols
    · rw [if_pos h1]; exact ⟨⟨_, rfl⟩, rfl⟩
    rw [if_neg h1]
    by_cases h2 : g.Winner ≠ 0 ∨ g.IsDraw = true
    · rw [if_pos h2]; exact ⟨⟨_, rfl⟩, rfl⟩
    rw [if_neg h2, hfr]
    exact ⟨⟨_, rfl⟩, rfl⟩

theorem findRow_lowest_empty_witness :
    Rectangular won67.Board ∧ (0 ≤ (3 : Int) ∧ (3 : Int) < (width won67.Board : Int)) ∧
    findRow won67.Board 3 = .ok 1 ∧
    ∃ r : Int, findRow won67.Board 3 = .ok r ∧
      (r = -1 ↔ ∀ i : Int, cellAt won67.Board i 3 ≠ .ok 0) :=
  ⟨by decide, by decide, by decide,
    (findRow_lowest_empty won67.Board (by decide) 3 (by decide)).imp
      (fun _ h => ⟨h.1, h.2.1⟩)⟩

/-- C6, as stated, fails: on the won game `won67` (reached from a fresh 6 x 7
game) a move attempt on column 7 is turned down by the column-range guard of
line 123, which comes before the terminal-game guard of line 128, so the
reason is `InvalidColumn` and not `GameAlreadyOver`. -/
theorem terminal_reason_counterexample :
    Reachable won67 ∧ won67.Terminal ∧
    (playHandler won67 7).1 = .Rejected .InvalidColumn ∧
    (playHandler won67 7).1 ≠ .Rejected .GameAlreadyOver :=
  ⟨reachable_won67, by decide, by decide, by decide⟩

/-- C6, amended: once the game is terminal (`Winner != 0` or `IsDraw`), for
every column argument the move step rejects and leaves the game unchanged;
the reason is `GameAlreadyOver` for a column in `[0, Cols)` and
`InvalidColumn` for a column outside it; consequently after any further
sequence of move attempts the game is still exactly the same. -/
theorem terminal_rejects (g : Game) (hterm : g.Terminal) (col : Int) :
    (playHandler g col).2 = g ∧
    ((0 ≤ col ∧ col < g.Cols) → (playHandler g col).1 = .Rejected .GameAlreadyOver) ∧
    ((col < 0 ∨ g.Cols ≤ col) → (playHandler g col).1 = .Rejected .InvalidColumn) ∧
    ∀ cols : List Int, serveAll g (cols.map Request.play) = g := by
  have hterm2 : g.Winner ≠ 0 ∨ g.IsDraw = true := hterm
  have hstep : ∀ c : Int, (playHandler g c).2 = g := by
    intro c
    unfold playHandler
    by_cases h1 : c < 0 ∨ c ≥ g.Cols
    · rw [if_pos h1]
    · rw [if_neg h1, if_pos hterm2]
  refine ⟨hstep col, ?_, ?_, ?_⟩
  · intro hin
    unfold playHandler
    rw [if_neg (by omega), if_pos hterm2]
  · intro hout
    unfold playHandler
    rw [if_pos (by omega)]
  · intro cols
    induction cols with
    | nil => rfl
    | cons c rest ih =>
      simp only [List.map_cons, serveAll, List.foldl_cons, serve]
      rw [hstep c]
      exact ih

theorem terminal_rejects_witness :
    won67.Terminal ∧ (playHandler won67 3).2 = won67 ∧
    (playHandler won67 3).1 = .Rejected .GameAlreadyOver ∧
    serveAll won67 [.play 3, .play 0, .play 9] = won67 :=
  ⟨by decide, (terminal_rejects won67 (by decide) 3).1, by decide, by decide⟩

/-- C7: in every game reachable from a freshly created game by move attempts
and resets, at most one of `Winner != 0` and `IsDraw = true` holds, `Winner`
is 0, 1 or 2 and `CurrentPlayer` is 1 or 2. -/
theorem reachable_flags (g : Game) (hreach : Reachable g) :
    ¬ (g.Winner ≠ 0 ∧ g.IsDraw = true) ∧
    (g.Winner = 0 ∨ g.Winner = 1 ∨ g.Winner = 2) ∧
    (g.CurrentPlayer = 1 ∨ g.CurrentPlayer = 2) := by
  obtain ⟨_, _, _, hcp, hwin, hexcl, _⟩ := inv_of_reachable hreach
  exact ⟨hexcl, hwin, hcp⟩

theorem reachable_flags_witness :
    Reachable won67 ∧ ¬ (won67.Winner ≠ 0 ∧ won67.IsDraw = true) ∧
    (won67.Winner = 0 ∨ won67.Winner = 1 ∨ won67.Winner = 2) ∧
    (won67.CurrentPlayer = 1 ∨ won67.CurrentPlayer = 2) :=
  ⟨reachable_won67, reachable_flags won67 reachable_won67⟩

/-- C8: for every reachable game, if an accepted move leaves a board without
any zero cell, then: when that board holds no run of four (for either
player) the game left has `IsDraw = true` and `Winner = 0`; when it holds a
run of four the game left has `Winner` equal to the mover and
`IsDraw = false`. -/
theorem last_cell_outcome (g : Game) (hreach : Reachable g) (col : Int)
    (hacc : (playHandler g col).1 = .Accepted)
    (hfull : ∀ ln ∈ (playHandler g col).2.Board, ∀ cell ∈ ln, cell ≠ 0) :
    ((scanFour (playHandler g col).2.Board 1 = false ∧
        scanFour (playHandler g col).2.Board 2 = false) →
      (playHandler g col).2.IsDraw = true ∧ (playHandler g col).2.Winner = 0) ∧
    ((scanFour (playHandler g col).2.Board 1 = true ∨
        scanFour (playHandler g col).2.Board 2 = true) →
      (playHandler g col).2.Winner = g.CurrentPlayer ∧
        (playHandler g col).2.IsDraw = false) := by
  have hinv := inv_of_reachable hreach
  obtain ⟨hwf2, _, _, _, hwin2, _, hfour2⟩ := inv_playHandler hinv col
  have hrect2 := rectangular_of_wellFormed hwf2
  obtain ⟨_, _, _, hcp, _, _, _⟩ := hinv
  obtain ⟨_, _, hw, hd, row, next, won, _, _, _, _, he⟩ := playHandler_accepted hacc
  rw [he] at hfull hwin2 hfour2 hrect2 ⊢
  simp only [moved_Board, moved_Winner, moved_IsDraw] at hfull hwin2 hfour2 hrect2 ⊢
  have hdraw : checkDraw next = true := (checkDraw_spec next).2 hfull
  constructor
  · rintro ⟨h1, h2⟩
    have hn1 : ¬ HasFour next 1 := by
      intro h; rw [(scanFour_iff hrect2 1).2 h] at h1; cases h1
    have hn2 : ¬ HasFour next 2 := by
      intro h; rw [(scanFour_iff hrect2 2).2 h] at h2; cases h2
    have e1 := hfour2 1 (Or.inl rfl)
    have e2 := hfour2 2 (Or.inr rfl)
    cases won with
    | true =>
      simp only [if_true] at e1 e2
      rcases hcp with h | h
      · exact absurd (e1.1 h) hn1
      · exact absurd (e2.1 h) hn2
    | false => simp [hdraw, hw]
  · intro h
    have hsome : ∃ q : Int, (q = 1 ∨ q = 2) ∧ HasFour next q := by
      rcases h with h | h
      · exact ⟨1, Or.inl rfl, (scanFour_iff hrect2 1).1 h⟩
      · exact ⟨2, Or.inr rfl, (scanFour_iff hrect2 2).1 h⟩
    obtain ⟨q, hq, hq4⟩ := hsome
    have e := (hfour2 q hq).2 hq4
    cases won with
    | true => simp [hd]
    | false =>
      simp only [Bool.false_eq_true, if_false] at e
      omega

theorem last_cell_outcome_witness :
    (Reachable fresh11 ∧ (playHandler fresh11 0).1 = .Accepted ∧
      (∀ ln ∈ (playHandler fresh11 0).2.Board, ∀ cell ∈ ln, cell ≠ 0) ∧
      (scanFour (playHandler fresh11 0).2.Board 1 = false ∧
        scanFour (playHandler fresh11 0).2.Board 2 = false) ∧
      (playHandler fresh11 0).2.IsDraw = true ∧ (playHandler fresh11 0).2.Winner = 0) ∧
    (Reachable lastCell17 ∧ (playHandler lastCell17 2).1 = .Accepted ∧
      (∀ ln ∈ (playHandler lastCell17 2).2.Board, ∀ cell ∈ ln, cell ≠ 0) ∧
      scanFour (playHandler lastCell17 2).2.Board 1 = true ∧
      (playHandler lastCell17 2).2.Winner = lastCell17.CurrentPlayer ∧
      (playHandler lastCell17 2).2.IsDraw = false) :=
  ⟨⟨reachable_fresh11, by decide, by decide, by decide,
      (last_cell_outcome fresh11 reachable_fresh11 0 (by decide) (by decide)).1
        (by decide)⟩,
    ⟨reachable_lastCell17, by decide, by decide, by decide,
      (last_cell_outcome lastCell17 reachable_lastCell17 2 (by decide) (by decide)).2
        (Or.inl (by decide))⟩⟩

/-- C9: for every board, `checkDraw` is true if and only if every cell of
the board is non-zero. -/
theorem checkDraw_iff_no_empty (board : Grid) :
    checkDraw board = true ↔ ∀ ln ∈ board, ∀ cell ∈ ln, cell ≠ 0 :=
  checkDraw_spec board

/-- C10: for every game with non-negative `Rows` and `Cols`, `resetHandler`
returns normally the game whose board is the all-zero `Rows` x `Cols` grid,
with `CurrentPlayer = 1`, `Winner = 0`, `IsDraw = false`, `TurnCount = 0` and
with both names, `Rows` and `Cols` as before; it is the game `createGame`
builds from the same names and dimensions. -/
theorem resetHandler_spec (g : Game) (hrows : 0 ≤ g.Rows) (hcols : 0 ≤ g.Cols) :
    resetHandler g = .ok
      { Board := List.replicate g.Rows.toNat (List.replicate g.Cols.toNat (0 : Int)),
        CurrentPlayer := 1, Winner := 0, IsDraw := false,
        Player1Name := g.Player1Name, Player2Name := g.Player2Name,
        Rows := g.Rows, Cols := g.Cols, TurnCount := 0 } ∧
    resetHandler g = createGame g.Player1Name g.Player2Name g.Rows g.Cols := by
  unfold resetHandler createGame
  rw [makeBoard_ok g.Rows g.Cols hrows hcols]
  exact ⟨rfl, rfl⟩

theorem resetHandler_spec_witness :
    (0 ≤ won67.Rows ∧ 0 ≤ won67.Cols) ∧ resetHandler won67 = .ok fresh67 ∧
    resetHandler won67 = createGame won67.Player1Name won67.Player2Name won67.Rows won67.Cols :=
  ⟨by decide, by decide, (resetHandler_spec won67 (by decide) (by decide)).2⟩

/-- C17: on a rectangular board, from a cell inside the grid and for every
direction in `{-1, 0, 1}^2` other than `(0, 0)`, `countInDirection` returns
normally the largest `k` such that the cells `(row + i*dRow, col + i*dCol)`
for `i = 1..k` are all inside the grid and all hold `player`; the cell
`(row, col)` itself is not among them, and `k` is less than the larger of the
number of rows and the number of columns. -/
theorem countInDirection_run (board : Grid) (hrect : Rectangular board)
    (row col player dRow dCol : Int) (hin : InGrid board row col)
    (hdr : dRow = -1 ∨ dRow = 0 ∨ dRow = 1) (hdc : dCol = -1 ∨ dCol = 0 ∨ dCol = 1)
    (hd : ¬ (dRow = 0 ∧ dCol = 0)) :
    ∃ k : Nat, countInDirection board row col player dRow dCol = .ok (k : Int) ∧
      (∀ i : Nat, 1 ≤ i → i ≤ k →
        cellAt board (row + i * dRow) (col + i * dCol) = .ok player) ∧
      (∀ j : Nat, (∀ i : Nat, 1 ≤ i → i ≤ j →
        cellAt board (row + i * dRow) (col + i * dCol) = .ok player) → j ≤ k) ∧
      k < max board.length (width board) := by
  obtain ⟨k, hk, hrun, hend⟩ :=
    countInDirection_spec hrect row col player dRow dCol (by omega)
  refine ⟨k, hk, hrun, ?_, ?_⟩
  · intro j hj
    by_contra hlt
    apply hend
    have := hj (k + 1) (by omega) (by omega)
    push_cast at this
    exact this
  · obtain ⟨h1, h2, h3, h4⟩ := hin
    by_cases hk0 : k = 0
    · subst hk0
      have : 0 < board.length := by omega
      exact lt_max_of_lt_left this
    · have hlast := inGrid_of_cellAt hrect (hrun k (by omega) (le_refl k))
      obtain ⟨g1, g2, g3, g4⟩ := hlast
      rcases hdr with e | e | e
      · subst e
        have : k < board.length := by omega
        exact lt_max_of_lt_left this
      · subst e
        rcases hdc with e | e | e
        · subst e
          have : k < width board := by omega
          exact lt_max_of_lt_right this
        · exact absurd ⟨rfl, e⟩ hd
        · subst e
          have : k < width board := by omega
          exact lt_max_of_lt_right this
      · subst e
        have : k < board.length := by omega
        exact lt_max_of_lt_left this

theorem countInDirection_run_witness :
    Rectangular bottomRow ∧ InGrid bottomRow 3 3 ∧
    countInDirection bottomRow 3 3 1 0 (-1) = .ok 3 ∧
    ∃ k : Nat, countInDirection bottomRow 3 3 1 0 (-1) = .ok (k : Int) ∧
      k < max bottomRow.length (width bottomRow) :=
  ⟨by decide, by decide, by decide,
    (countInDirection_run bottomRow (by decide) 3 3 1 0 (-1) (by decide) (by decide)
      (by decide) (by decide)).imp (fun _ h => ⟨h.1, h.2.2.2⟩)⟩

/-- C15: on a well-formed game an accepted move on column `col` writes
exactly one cell, `(findRow board col, col)`, which held zero and now holds
the `CurrentPlayer` of before the move; every other cell, both names, `Rows`
and `Cols` are unchanged.  Hence no move attempt, accepted or not, clears or
overwrites an occupied cell. -/
theorem accepted_move_frame (g : Game) (hwf : g.WellFormed) (col : Int) :
    ((playHandler g col).1 = .Accepted →
      ∃ row : Int, findRow g.Board col = .ok row ∧
        cellAt g.Board row col = .ok 0 ∧
        cellAt (playHandler g col).2.Board row col = .ok g.CurrentPlayer ∧
        (∀ r c : Int, ¬ (r = row ∧ c = col) →
          cellAt (playHandler g col).2.Board r c = cellAt g.Board r c) ∧
        (playHandler g col).2.Board.length = g.Board.length ∧
        (playHandler g col).2.Player1Name = g.Player1Name ∧
        (playHandler g col).2.Player2Name = g.Player2Name ∧
        (playHandler g col).2.Rows = g.Rows ∧ (playHandler g col).2.Cols = g.Cols) ∧
    (∀ r c v : Int, cellAt g.Board r c = .ok v → v ≠ 0 →
      cellAt (playHandler g col).2.Board r c = .ok v) := by
  rcases playHandler_cases hwf col with ⟨he, _⟩ | ⟨he, _⟩ | ⟨he, _⟩ |
    ⟨row, next, won, _, _, _, hfr, _, hzero, _, _, hnl, _, _, hcells, _, _, he⟩
  · rw [he]; exact ⟨fun h => (by cases h), fun _ _ _ h _ => h⟩
  · rw [he]; exact ⟨fun h => (by cases h), fun _ _ _ h _ => h⟩
  · rw [he]; exact ⟨fun h => (by cases h), fun _ _ _ h _ => h⟩
  · rw [he]
    rw [moved_Board, moved_Rows, moved_Cols, (moved_names g next won).1,
      (moved_names g next won).2]
    constructor
    · intro _
      refine ⟨row, hfr, hzero, (hcells _ _ _).2 (Or.inl ⟨rfl, rfl, rfl⟩), ?_, hnl, rfl, rfl,
        rfl, rfl⟩
      intro r c hne
      apply cellAt_ext
      intro x
      rw [hcells]
      constructor
      · rintro (⟨h1, h2, _⟩ | ⟨_, h⟩)
        · exact absurd ⟨h1, h2⟩ hne
        · exact h
      · intro h; exact Or.inr ⟨hne, h⟩
    · intro r c v hv hv0
      rw [hcells]
      right
      refine ⟨?_, hv⟩
      rintro ⟨h1, h2⟩
      subst h1; subst h2
      rw [hzero] at hv
      cases hv
      exact hv0 rfl

theorem accepted_move_frame_witness :
    sample.WellFormed ∧ (playHandler sample 1).1 = .Accepted ∧
    (playHandler sample 1).2.Board = [[0, 0], [1, 2]] ∧
    (∃ row : Int, findRow sample.Board 1 = .ok row ∧ cellAt sample.Board row 1 = .ok 0 ∧
      cellAt (playHandler sample 1).2.Board row 1 = .ok sample.CurrentPlayer) ∧
    ∀ r c v : Int, cellAt sample.Board r c = .ok v → v ≠ 0 →
      cellAt (playHandler sample 1).2.Board r c = .ok v :=
  ⟨by decide, by decide, by decide,
    ((accepted_move_frame sample (by decide) 1).1 (by decide)).imp
      (fun _ h => ⟨h.1, h.2.1, h.2.2.1⟩),
    (accepted_move_frame sample (by decide) 1).2⟩

/-- C16: in every game reachable from a game created with positive
dimensions the board is a `Rows` x `Cols` grid, and for every integer column
the move step ends in an accepted move or in a rejection, never in a panic;
for a column in range `findRow` returns normally and, when it returns a row,
the cell assignment and `checkWin` return normally too. -/
theorem playHandler_no_abort (g : Game) (hreach : Reachable g) (col : Int) :
    g.WellFormed ∧
    ((playHandler g col).1 = .Accepted ∨ ∃ reason, (playHandler g col).1 = .Rejected reason) ∧
    (∀ f : Fault, (playHandler g col).1 ≠ .Aborted f) ∧
    (0 ≤ col ∧ col < g.Cols →
      ∃ row : Int, findRow g.Board col = .ok row ∧
        (row ≠ -1 → ∃ next : Grid, setCell g.Board row col g.CurrentPlayer = .ok next ∧
          ∃ won : Bool, checkWin next row col g.CurrentPlayer = .ok won)) := by
  obtain ⟨hwf, hrows, _, _⟩ := inv_of_reachable hreach
  have hrect := rectangular_of_wellFormed hwf
  have hout : (playHandler g col).1 = .Accepted ∨
      ∃ reason, (playHandler g col).1 = .Rejected reason := by
    rcases playHandler_cases hwf col with ⟨he, _⟩ | ⟨he, _⟩ | ⟨he, _⟩ |
      ⟨row, next, won, _, _, _, _, _, _, _, _, _, _, _, _, _, _, he⟩
    · rw [he]; exact Or.inr ⟨_, rfl⟩
    · rw [he]; exact Or.inr ⟨_, rfl⟩
    · rw [he]; exact Or.inr ⟨_, rfl⟩
    · rw [he]; exact Or.inl rfl
  refine ⟨hwf, hout, ?_, ?_⟩
  · intro f hf
    rcases hout with h | ⟨reason, h⟩
    · rw [h] at hf; cases hf
    · rw [h] at hf; cases hf
  · intro hcol
    have hlen : 0 < g.Board.length := by
      have := hwf.1
      omega
    have hwidth := width_of_wellFormed hwf hlen
    obtain ⟨row, hfr, hcase⟩ := findRow_spec hrect col ⟨hcol.1, by omega⟩
    refine ⟨row, hfr, ?_⟩
    intro hne
    rcases hcase with ⟨h1, _⟩ | ⟨h1, h2, _, _⟩
    · exact absurd h1 hne
    · obtain ⟨next, hset, _, hnr, _, hcells⟩ :=
        setCell_spec hrect ⟨h1, h2, hcol.1, by omega⟩ g.CurrentPlayer
      obtain ⟨won, hwin, _⟩ := checkWin_spec hnr row col g.CurrentPlayer
        ((hcells row col g.CurrentPlayer).2 (Or.inl ⟨rfl, rfl, rfl⟩))
      exact ⟨next, hset, won, hwin⟩

theorem playHandler_no_abort_witness :
    Reachable lastCell17 ∧ lastCell17.WellFormed ∧ (playHandler lastCell17 2).1 = .Accepted ∧
    (playHandler lastCell17 0).1 = .Rejected .ColumnFull ∧
    ∀ f : Fault, (playHandler lastCell17 9).1 ≠ .Aborted f :=
  ⟨reachable_lastCell17, by decide, by decide, by decide,
    (playHandler_no_abort lastCell17 reachable_lastCell17 9).2.2.1⟩

/-- C20: `checkWin` never reads the centre cell.  On a rectangular board and
for a cell `(row, col)` inside the grid, replacing the value of that cell by
any `v` leaves the answer of `checkWin board row col player` unchanged; so
`checkWin` can answer `true` although the centre is empty, as on the one-row
board `threeLeft` with three tokens of player 1 to the left of an empty
cell. -/
theorem checkWin_ignores_centre (board : Grid) (hrect : Rectangular board)
    (row col player v : Int) (hin : InGrid board row col) :
    (∃ changed : Grid, setCell board row col v = .ok changed ∧
      checkWin changed row col player = checkWin board row col player) ∧
    (Rectangular threeLeft ∧ cellAt threeLeft 0 3 = .ok 0 ∧
      checkWin threeLeft 0 3 1 = .ok true) := by
  refine ⟨?_, by decide, by decide, by decide⟩
  obtain ⟨changed, hset, _, hcr, _, hcells⟩ := setCell_spec hrect hin v
  refine ⟨changed, hset, ?_⟩
  have hoff : ∀ r c : Int, ¬ (r = row ∧ c = col) →
      (cellAt changed r c = .ok player ↔ cellAt board r c = .ok player) := by
    intro r c hne
    rw [hcells]
    constructor
    · rintro (⟨a1, a2, _⟩ | ⟨_, h⟩)
      · exact absurd ⟨a1, a2⟩ hne
      · exact h
    · intro h; exact Or.inr ⟨hne, h⟩
  unfold checkWin
  rw [checkDirection_congr hcr hrect row col player 0 1 (by omega)
      (fun i hi => hoff _ _ (by omega)) (fun i hi => hoff _ _ (by omega)),
    checkDirection_congr hcr hrect row col player 1 0 (by omega)
      (fun i hi => hoff _ _ (by omega)) (fun i hi => hoff _ _ (by omega)),
    checkDirection_congr hcr hrect row col player 1 1 (by omega)
      (fun i hi => hoff _ _ (by omega)) (fun i hi => hoff _ _ (by omega)),
    checkDirection_congr hcr hrect row col player 1 (-1) (by omega)
      (fun i hi => hoff _ _ (by omega)) (fun i hi => hoff _ _ (by omega))]

theorem checkWin_ignores_centre_witness :
    Rectangular bottomRow ∧ InGrid bottomRow 3 3 ∧
    checkWin bottomRow 3 3 1 = .ok true ∧
    ∃ changed : Grid, setCell bottomRow 3 3 2 = .ok changed ∧
      checkWin changed 3 3 1 = checkWin bottomRow 3 3 1 :=
  ⟨by decide, by decide, by decide,
    (checkWin_ignores_centre bottomRow (by decide) 3 3 1 2 (by decide)).1⟩

/-- C12: vertical-win scenario on every board with at least four rows.  From
a fresh game, player 1 drops into column `k` on each of the first four turns
and player 2 drops on the three turns in between into columns `c1`, `c2`,
`c3` of the board other than `k`: all seven moves are accepted and after the
fourth drop of player 1 the game has `Winner = 1`, `IsDraw = false` and
`TurnCount = 7`.  (That the board has at least two columns follows from `k`
and `c1` being different columns of it.) -/
theorem vertical_win (player1 player2 : String) (rows cols k c1 c2 c3 : Int)
    (hrows : 4 ≤ rows) (hk : 0 ≤ k ∧ k < cols)
    (h1 : 0 ≤ c1 ∧ c1 < cols ∧ c1 ≠ k) (h2 : 0 ≤ c2 ∧ c2 < cols ∧ c2 ≠ k)
    (h3 : 0 ≤ c3 ∧ c3 < cols ∧ c3 ≠ k) :
    ∃ g0 g1 g2 g3 g4 g5 g6 g7 : Game,
      createGame player1 player2 rows cols = .ok g0 ∧
      playHandler g0 k = (.Accepted, g1) ∧ playHandler g1 c1 = (.Accepted, g2) ∧
      playHandler g2 k = (.Accepted, g3) ∧ playHandler g3 c2 = (.Accepted, g4) ∧
      playHandler g4 k = (.Accepted, g5) ∧ playHandler g5 c3 = (.Accepted, g6) ∧
      playHandler g6 k = (.Accepted, g7) ∧
      g7.Winner = 1 ∧ g7.IsDraw = false ∧ g7.TurnCount = 7 := by
  obtain ⟨g0, g1, g2, g3, g4, g5, g6, s1, s2, s3, hcreate, e1, e2, e3, e4, e5, e6, p6⟩ :=
    six_moves player1 player2 rows cols k c1 c2 c3 hrows hk h1 h2 h3
  have hk1 : k ≠ c1 := Ne.symm h1.2.2
  have hk2 : k ≠ c2 := Ne.symm h2.2.2
  have hk3 : k ≠ c3 := Ne.symm h3.2.2
  obtain ⟨r4, next, won, r4a, r4b, r4f, r4l, hdesc, hnr, hnl, hnw, hwon, e7⟩ :=
    inPlay_drop p6 hk
      (by simp [inColumn_cons, inColumn_nil, h1.2.2, h2.2.2, h3.2.2]; omega)
  have hr4 : r4 = rows - 4 := by
    simp [tokenAt, hk1, hk2, hk3] at r4f r4l
    omega
  subst hr4
  have hline : Line next 1 (rows - 4) k 1 0 0 3 := by
    intro i hlo hhi
    have hcell := cellAt_of_describes hnr hdesc (r := rows - 4 + i * 1) (c := k + i * 0)
      ⟨by omega, by omega, by omega, by omega⟩
    rw [hcell]
    congr 1
    have hi : i = 0 ∨ i = 1 ∨ i = 2 ∨ i = 3 := by omega
    rcases hi with rfl | rfl | rfl | rfl <;> simp [tokenAt, hk1, hk2, hk3] <;> omega
  have hw : won = true := hwon.2 ⟨(1, 0), by simp [orientations], 0, 3, by omega, hline⟩
  obtain ⟨_, _, hcp, _, hd, hn, _, _⟩ := p6
  refine ⟨g0, g1, g2, g3, g4, g5, g6, moved g6 next won, hcreate, e1, e2, e3, e4, e5, e6, e7,
    ?_, ?_, ?_⟩
  · rw [moved_Winner, hw, hcp]; rfl
  · rw [moved_IsDraw, hw, hd]; rfl
  · rw [moved_TurnCount, hn]; rfl

theorem vertical_win_witness :
    ((4 : Int) ≤ 6) ∧ (0 ≤ (3 : Int) ∧ (3 : Int) < 7) ∧
    (0 ≤ (0 : Int) ∧ (0 : Int) < 7 ∧ (0 : Int) ≠ 3) ∧
    serveAll fresh67 columnThree = won67 ∧ won67.Winner = 1 ∧ won67.TurnCount = 7 ∧
    ∃ g0 g1 g2 g3 g4 g5 g6 g7 : Game,
      createGame "ann" "bob" 6 7 = .ok g0 ∧
      playHandler g0 3 = (.Accepted, g1) ∧ playHandler g1 0 = (.Accepted, g2) ∧
      playHandler g2 3 = (.Accepted, g3) ∧ playHandler g3 0 = (.Accepted, g4) ∧
      playHandler g4 3 = (.Accepted, g5) ∧ playHandler g5 0 = (.Accepted, g6) ∧
      playHandler g6 3 = (.Accepted, g7) ∧
      g7.Winner = 1 ∧ g7.IsDraw = false ∧ g7.TurnCount = 7 :=
  ⟨by decide, by decide, by decide, serveAll_columnThree, by decide, by decide,
    vertical_win "ann" "bob" 6 7 3 0 0 0 (by decide) (by decide) (by decide) (by decide)
      (by decide)⟩

/-- C13, as stated, fails for `N = 1`: on the fresh 1 x 1 game the first drop
into column 0 is accepted and fills the board, so the game is drawn; the
second attempt on column 0 is then turned down by the terminal guard of line
128, reached before `findRow`, and the reason is `GameAlreadyOver`, not
`ColumnFull`. -/
theorem one_row_counterexample :
    createGame "ann" "bob" 1 1 = .ok fresh11 ∧
    (playHandler fresh11 0).1 = .Accepted ∧
    (playHandler fresh11 0).2.IsDraw = true ∧
    (playHandler (playHandler fresh11 0).2 0).1 = .Rejected .GameAlreadyOver ∧
    (playHandler (playHandler fresh11 0).2 0).1 ≠ .Rejected .ColumnFull :=
  ⟨by decide, by decide, by decide, by decide, by decide⟩

/-- C13, amended: on a fresh game with one row and `N > 0` columns, for every
column `c` in `[0, N)`, the first drop into `c` is accepted and fills that
column, and a second attempt on the same column is rejected and leaves the
game unchanged; the reason is `ColumnFull` when `N >= 2`, and
`GameAlreadyOver` when `N = 1`, where the first drop fills the board and
draws the game. -/
theorem one_row_second_drop (player1 player2 : String) (N c : Int) (hN : 0 < N)
    (hc : 0 ≤ c ∧ c < N) :
    ∃ g0 g1 : Game,
      createGame player1 player2 1 N = .ok g0 ∧
      playHandler g0 c = (.Accepted, g1) ∧
      cellAt g1.Board 0 c = .ok 1 ∧ (∀ r : Int, cellAt g1.Board r c ≠ .ok 0) ∧
      (playHandler g1 c).2 = g1 ∧
      (2 ≤ N → (playHandler g1 c).1 = .Rejected .ColumnFull) ∧
      (N = 1 → (playHandler g1 c).1 = .Rejected .GameAlreadyOver ∧ g1.IsDraw = true) := by
  have hcreate : createGame player1 player2 1 N = .ok
      { Board := List.replicate (1 : Int).toNat (List.replicate N.toNat (0 : Int)),
        CurrentPlayer := 1, Winner := 0, IsDraw := false,
        Player1Name := player1, Player2Name := player2,
        Rows := 1, Cols := N, TurnCount := 0 } := by
    unfold createGame
    rw [makeBoard_ok 1 N (by omega) (by omega)]
    rfl
  obtain ⟨g0, hcreate, p0⟩ : ∃ g0 : Game,
      createGame player1 player2 1 N = .ok g0 ∧ InPlay g0 [] 1 0 1 N :=
    ⟨_, hcreate, inv_createGame (by omega) hN hcreate, describes_zeros _ _, rfl, rfl, rfl,
      rfl, rfl, rfl⟩
  obtain ⟨row, next, won, hr0, hr1, _, _, hdesc, hnr, hnl, hnw, hwon, e1⟩ :=
    inPlay_drop p0 hc (by simp [inColumn_nil])
  have hrow : row = 0 := by omega
  subst hrow
  have hinv1 : Inv (moved g0 next won) := by
    have h := inv_playHandler p0.1 c
    rw [e1] at h
    exact h
  have hnowin : won = false := by
    cases hwv : won with
    | false => rfl
    | true =>
      exfalso
      obtain ⟨d, hd4, a, b, hlen, hline⟩ := hwon.1 hwv
      have h4 := ofPlayer_of_hasFour hdesc (by omega) (hasFour_of_line hd4 hlen hline)
      simp [ofPlayer_cons, ofPlayer_nil] at h4
  subst hnowin
  have hcell : cellAt next 0 c = .ok 1 := by
    rw [cellAt_of_describes hnr hdesc ⟨by omega, by omega, hc.1, by omega⟩]
    simp [tokenAt]
  have hfull : ∀ r : Int, cellAt next r c ≠ .ok 0 := by
    intro r hr
    have hin := inGrid_of_cellAt hnr hr
    have hr0 : r = 0 := by unfold InGrid at hin; omega
    rw [hr0, hcell] at hr
    cases hr
  have hcols1 : (moved g0 next false).Cols = N := by rw [moved_Cols]; exact p0.2.2.2.2.2.2.2
  have hw0 : g0.Winner = 0 := p0.2.2.2.1
  have hd0 : g0.IsDraw = false := p0.2.2.2.2.1
  by_cases hN2 : 2 ≤ N
  · have hnodraw : checkDraw next = false := by
      obtain ⟨r, hr⟩ := free_cell_of_inColumn hnr hdesc (if c = 0 then 1 else 0)
        ⟨by split_ifs <;> omega, by split_ifs <;> omega⟩
        (by simp only [inColumn_cons, inColumn_nil]; split_ifs <;> omega)
      exact checkDraw_false_of_zero hr
    have hnt : ¬ (moved g0 next false).Terminal := by
      rintro (ht | ht)
      · rw [moved_Winner] at ht; exact ht hw0
      · simp [moved_IsDraw, hnodraw, hd0] at ht
    have hrej := playHandler_full hinv1.1 hnt c ⟨hc.1, by rw [hcols1]; exact hc.2⟩
      (by rw [moved_Board]; exact hfull)
    refine ⟨g0, _, hcreate, e1, by rw [moved_Board]; exact hcell,
      by rw [moved_Board]; exact hfull, by rw [hrej], fun _ => by rw [hrej], ?_⟩
    intro h; omega
  · have hN1 : N = 1 := by omega
    have hdraw : checkDraw next = true := by
      apply checkDraw_true_of_full
      intro r c2 hr
      have hin := inGrid_of_cellAt hnr hr
      have hr0 : r = 0 := by unfold InGrid at hin; omega
      have hc0 : c2 = c := by unfold InGrid at hin; omega
      rw [hr0, hc0, hcell] at hr
      cases hr
    have hisdraw : (moved g0 next false).IsDraw = true := by
      rw [moved_IsDraw, hdraw]; rfl
    have hrej := playHandler_over (Or.inr hisdraw) c
      ⟨hc.1, by rw [hcols1]; exact hc.2⟩
    refine ⟨g0, _, hcreate, e1, by rw [moved_Board]; exact hcell,
      by rw [moved_Board]; exact hfull, by rw [hrej], ?_, fun _ => ⟨by rw [hrej], hisdraw⟩⟩
    intro h; omega

theorem one_row_second_drop_witness :
    ((0 : Int) < 7) ∧ (0 ≤ (2 : Int) ∧ (2 : Int) < 7) ∧
    (playHandler fresh17 2).1 = .Accepted ∧
    (playHandler (playHandler fresh17 2).2 2).1 = .Rejected .ColumnFull ∧
    ∃ g0 g1 : Game,
      createGame "ann" "bob" 1 7 = .ok g0 ∧
      playHandler g0 2 = (.Accepted, g1) ∧
      cellAt g1.Board 0 2 = .ok 1 ∧ (∀ r : Int, cellAt g1.Board r 2 ≠ .ok 0) ∧
      (playHandler g1 2).2 = g1 ∧
      ((2 : Int) ≤ 7 → (playHandler g1 2).1 = .Rejected .ColumnFull) ∧
      ((7 : Int) = 1 → (playHandler g1 2).1 = .Rejected .GameAlreadyOver ∧ g1.IsDraw = true) :=
  ⟨by decide, by decide, by decide, by decide,
    one_row_second_drop "ann" "bob" 7 2 (by decide) (by decide)⟩

/-- C14: gravity.  In every game reachable from a freshly created game by
move attempts and resets, every column is filled bottom-up without gaps: for
every column `c` and rows `r < r2 < Rows`, if cell `(r, c)` is occupied then
cell `(r2, c)` is occupied. -/
theorem gravity_reachable (g : Game) (hreach : Reachable g) (c r r2 v : Int)
    (hlt : r < r2) (hr2 : r2 < g.Rows) (hcell : cellAt g.Board r c = .ok v) (hv : v ≠ 0) :
    ∃ w : Int, cellAt g.Board r2 c = .ok w ∧ w ≠ 0 := by
  obtain ⟨hwf, _, _, _⟩ := inv_of_reachable hreach
  obtain ⟨hgrav, _⟩ := counted_of_reachable hreach
  have hrect := rectangular_of_wellFormed hwf
  obtain ⟨i1, i2, i3, i4⟩ := inGrid_of_cellAt hrect hcell
  have hlen := hwf.1
  obtain ⟨w, hw⟩ := cellAt_of_inGrid hrect (r := r2) (c := c) ⟨by omega, by omega, i3, i4⟩
  refine ⟨w, hw, ?_⟩
  intro hw0
  rw [hw0] at hw
  exact hgrav r r2 c v hlt hcell hv hw

theorem gravity_reachable_witness :
    Reachable won67 ∧ ((2 : Int) < 5 ∧ (5 : Int) < won67.Rows) ∧
    cellAt won67.Board 2 3 = .ok 1 ∧ cellAt won67.Board 5 3 = .ok 1 ∧
    ∃ w : Int, cellAt won67.Board 5 3 = .ok w ∧ w ≠ 0 :=
  ⟨reachable_won67, by decide, by decide, by decide,
    gravity_reachable won67 reachable_won67 3 2 5 1 (by decide) (by decide) (by decide)
      (by decide)⟩

/-- C18: in every reachable game `TurnCount` equals the number of occupied
cells of the board; hence `0 <= TurnCount <= Rows * Cols`, a reachable game
with `TurnCount = Rows * Cols` is terminal, and a move is only accepted while
`TurnCount < Rows * Cols`, each accepted move adding one. -/
theorem turnCount_counts (g : Game) (hreach : Reachable g) :
    g.TurnCount = (occupied g.Board : Int) ∧
    0 ≤ g.TurnCount ∧ g.TurnCount ≤ g.Rows * g.Cols ∧
    (g.TurnCount = g.Rows * g.Cols → g.Terminal) ∧
    (∀ col : Int, (playHandler g col).1 = .Accepted →
      g.TurnCount < g.Rows * g.Cols ∧
        (playHandler g col).2.TurnCount = g.TurnCount + 1) := by
  obtain ⟨hwf, _, _, _⟩ := inv_of_reachable hreach
  obtain ⟨_, hturn, _, _, _, _, _, hfree⟩ := counted_of_reachable hreach
  have htotal := cells_of_wellFormed hwf
  have hle := countCells_le (fun x => decide (x ≠ 0)) g.Board
  have hle2 : (occupied g.Board : Int) ≤ g.Rows * g.Cols := by
    rw [← htotal]
    exact_mod_cast hle
  have hfull : g.TurnCount = g.Rows * g.Cols → g.Terminal := by
    intro heq
    by_contra hnt
    obtain ⟨r, c, hz⟩ := hfree hnt
    obtain ⟨ln, hln, hx⟩ := mem_of_cellAt hz
    have hall := all_of_countCells_eq (fun x => decide (x ≠ 0)) g.Board (by
      have : ((countCells (fun x => decide (x ≠ 0)) g.Board : Nat) : Int) =
          (((g.Board.map List.length).sum : Nat) : Int) := by
        rw [htotal, ← heq, hturn]; rfl
      exact_mod_cast this)
    have := hall ln hln 0 hx
    simp at this
  refine ⟨hturn, by omega, by omega, hfull, ?_⟩
  intro col hacc
  obtain ⟨_, _, hw, hd, row, next, won, _, _, _, _, he⟩ := playHandler_accepted hacc
  have hnt : ¬ g.Terminal := by
    rintro (h | h)
    · exact h hw
    · rw [hd] at h; cases h
  constructor
  · have hne : g.TurnCount ≠ g.Rows * g.Cols := fun h => hnt (hfull h)
    omega
  · rw [he, moved_TurnCount]

theorem turnCount_counts_witness :
    Reachable won67 ∧ won67.TurnCount = 7 ∧ occupied won67.Board = 7 ∧
    won67.TurnCount = (occupied won67.Board : Int) ∧
    won67.TurnCount ≤ won67.Rows * won67.Cols :=
  ⟨reachable_won67, by decide, by decide, (turnCount_counts won67 reachable_won67).1,
    (turnCount_counts won67 reachable_won67).2.2.1⟩

/-- C19: turn alternation.  In every reachable game every cell is 0, 1 or 2
and the number of cells holding 1 exceeds the number of cells holding 2 by 0
or 1; while the game is not terminal, `CurrentPlayer = 1` exactly when the two
numbers are equal, which is exactly when `TurnCount` is even, and
`CurrentPlayer = 2` otherwise; once there is a winner, `CurrentPlayer` is the
winner. -/
theorem turn_alternation (g : Game) (hreach : Reachable g) :
    ((holding 1 g.Board : Int) - (holding 2 g.Board : Int) = 0 ∨
      (holding 1 g.Board : Int) - (holding 2 g.Board : Int) = 1) ∧
    (∀ r c v : Int, cellAt g.Board r c = .ok v → v = 0 ∨ v = 1 ∨ v = 2) ∧
    (¬ g.Terminal →
      (g.CurrentPlayer = 1 ↔ holding 1 g.Board = holding 2 g.Board) ∧
      (g.CurrentPlayer = 1 ↔ g.TurnCount % 2 = 0) ∧
      (g.CurrentPlayer ≠ 1 → g.CurrentPlayer = 2)) ∧
    (g.Winner ≠ 0 → g.CurrentPlayer = g.Winner) := by
  obtain ⟨_, hturn, hvals, hsum, hterm, hplay, hwin, _⟩ := counted_of_reachable hreach
  refine ⟨?_, hvals, ?_, hwin⟩
  · by_cases ht : g.Terminal
    · rcases hterm ht with ⟨_, h⟩ | ⟨_, h⟩ <;> omega
    · rcases hplay ht with ⟨_, h⟩ | ⟨_, h⟩ <;> omega
  · intro ht
    rcases hplay ht with ⟨e, h⟩ | ⟨e, h⟩
    · refine ⟨⟨fun _ => h, fun _ => e⟩, ⟨fun _ => by omega, fun _ => e⟩,
        fun hne => absurd e hne⟩
    · refine ⟨⟨fun h1 => by omega, fun h2 => by omega⟩,
        ⟨fun h1 => by omega, fun h2 => by omega⟩, fun _ => e⟩

theorem turn_alternation_witness :
    Reachable lastCell17 ∧ ¬ lastCell17.Terminal ∧
    holding 1 lastCell17.Board = 3 ∧ holding 2 lastCell17.Board = 3 ∧
    lastCell17.CurrentPlayer = 1 ∧
    (lastCell17.CurrentPlayer = 1 ↔ lastCell17.TurnCount % 2 = 0) ∧
    Reachable won67 ∧ won67.Winner ≠ 0 ∧ won67.CurrentPlayer = won67.Winner :=
  ⟨reachable_lastCell17, by decide, by decide, by decide, by decide,
    ((turn_alternation lastCell17 reachable_lastCell17).2.2.1 (by decide)).2.1,
    reachable_won67, by decide,
    (turn_alternation won67 reachable_won67).2.2.2 (by decide)⟩

end Power4
